import Mathlib

/-!
# Verification of the path-addressed JSON node-edit core

Shallow embedding of the core helpers of `src/pages/index.tsx`:
`normalizeNodeData`, `getValueAtPath`, `setValueAtPath`, `pathEquals` and the
`handleSave` orchestration, together with models of the JavaScript library
functions they use (`JSON.parse`, `JSON.stringify(·, null, 2)`, template-string
conversion, object spread, array spread, property access and assignment).

JavaScript values reachable in this code are JSON trees plus `undefined`
(the absent sentinel returned by failed property access, and the content of
array holes created by out-of-range index assignment), so the value model
`JsonValue` has an `undef` constructor.  Objects are insertion-ordered
association lists; property access and assignment coerce a numeric segment
and its decimal string to the same property, as JavaScript does.  Numbers are
modelled as integers (the only numbers these claims exercise); strings are
treated as scalars (not as indexable character collections).  The value type
is a mutual inductive with its own list types so that every operation is
structurally recursive and computable by the kernel.
-/

set_option maxHeartbeats 1000000

namespace JsonCore

mutual
/-- A JavaScript value as used by the node-edit core: JSON values plus
`undefined` (`undef`), which models both the absent sentinel of
`getValueAtPath` and array holes. -/
inductive JsonValue where
  | null : JsonValue
  | undef : JsonValue
  | bool : Bool → JsonValue
  | num : Int → JsonValue
  | str : String → JsonValue
  | arr : JsonList → JsonValue
  | obj : JsonMembers → JsonValue

/-- The element list of a JSON array. -/
inductive JsonList where
  | nil : JsonList
  | cons : JsonValue → JsonList → JsonList

/-- The insertion-ordered key/value members of a JSON object. -/
inductive JsonMembers where
  | nil : JsonMembers
  | cons : String → JsonValue → JsonMembers → JsonMembers
end

/-- Build a `JsonList` from an ordinary list (for concrete examples). -/
def JsonList.ofList : List JsonValue → JsonList
  | [] => .nil
  | v :: t => .cons v (JsonList.ofList t)

/-- Build `JsonMembers` from an ordinary association list (for examples). -/
def JsonMembers.ofList : List (String × JsonValue) → JsonMembers
  | [] => .nil
  | (k, v) :: t => .cons k v (JsonMembers.ofList t)

/-- Object literal shorthand used in statements. -/
def jobj (l : List (String × JsonValue)) : JsonValue := .obj (JsonMembers.ofList l)

/-- Array literal shorthand used in statements. -/
def jarr (l : List JsonValue) : JsonValue := .arr (JsonList.ofList l)

mutual
/-- Structural (`===`-style deep) equality test on values. -/
def beqV : JsonValue → JsonValue → Bool
  | .null, .null => true
  | .undef, .undef => true
  | .bool a, .bool b => a == b
  | .num a, .num b => a == b
  | .str a, .str b => a == b
  | .arr a, .arr b => beqL a b
  | .obj a, .obj b => beqM a b
  | _, _ => false

/-- Structural equality on array element lists. -/
def beqL : JsonList → JsonList → Bool
  | .nil, .nil => true
  | .cons a as, .cons b bs => beqV a b && beqL as bs
  | _, _ => false

/-- Structural equality on object member lists. -/
def beqM : JsonMembers → JsonMembers → Bool
  | .nil, .nil => true
  | .cons k a as, .cons k' b bs => k == k' && beqV a b && beqM as bs
  | _, _ => false
end

mutual
def beqV_iff : ∀ a b, beqV a b = true ↔ a = b
  | .null, b => by cases b <;> simp [beqV]
  | .undef, b => by cases b <;> simp [beqV]
  | .bool x, b => by cases b <;> simp [beqV]
  | .num x, b => by cases b <;> simp [beqV]
  | .str x, b => by cases b <;> simp [beqV]
  | .arr x, b => by
    cases b with
    | arr y => have h := beqL_iff x y; simp [beqV, h]
    | _ => simp [beqV]
  | .obj x, b => by
    cases b with
    | obj y => have h := beqM_iff x y; simp [beqV, h]
    | _ => simp [beqV]

def beqL_iff : ∀ a b, beqL a b = true ↔ a = b
  | .nil, b => by cases b <;> simp [beqL]
  | .cons x xs, b => by
    cases b with
    | cons y ys =>
      have h1 := beqV_iff x y
      have h2 := beqL_iff xs ys
      simp [beqL, h1, h2]
    | nil => simp [beqL]

def beqM_iff : ∀ a b, beqM a b = true ↔ a = b
  | .nil, b => by cases b <;> simp [beqM]
  | .cons k x xs, b => by
    cases b with
    | cons k' y ys =>
      have h1 := beqV_iff x y
      have h2 := beqM_iff xs ys
      simp [beqM, h1, h2, and_assoc]
    | nil => simp [beqM]
end

instance : DecidableEq JsonValue := fun a b => decidable_of_iff _ (beqV_iff a b)
instance : DecidableEq JsonList := fun a b => decidable_of_iff _ (beqL_iff a b)
instance : DecidableEq JsonMembers := fun a b => decidable_of_iff _ (beqM_iff a b)

/-! ## Decimal numerals

Self-contained decimal rendering and reading (fueled, hence structurally
recursive and kernel-computable), used to model JavaScript's
number-to-property-key coercion (`obj[0]` is `obj["0"]`) and the number parts
of `JSON.parse` / `JSON.stringify`. -/

/-- The decimal digit character for `n < 10`. -/
def digitChar (n : Nat) : Char := Char.ofNat (48 + n)

/-- Fueled digit expansion; `fuel` bounds the recursion depth. -/
def natDigitsAux : Nat → Nat → List Char
  | 0, _ => []
  | fuel + 1, n =>
    if n < 10 then [digitChar n]
    else natDigitsAux fuel (n / 10) ++ [digitChar (n % 10)]

/-- Decimal digits of a natural number, most significant first. -/
def natDigits (n : Nat) : List Char := natDigitsAux (n + 1) n

/-- Is `c` a decimal digit character? -/
def isDigit (c : Char) : Bool := 48 ≤ c.toNat && c.toNat ≤ 57

/-- Accumulating decimal reader: `digitsToNat a ds` extends `a` by digits `ds`. -/
def digitsToNat (a : Nat) : List Char → Nat
  | [] => a
  | c :: t => digitsToNat (a * 10 + (c.toNat - 48)) t

/-- Read a character list as a canonical decimal numeral (no sign, no leading
zero): exactly the strings JavaScript treats as array-index property keys. -/
def canonNat? : List Char → Option Nat
  | [] => none
  | c :: t =>
    if c = '0' ∧ t = [] then some 0
    else if isDigit c && c ≠ '0' && t.all isDigit then some (digitsToNat 0 (c :: t))
    else none

/-- String form of a natural number. -/
def natStr (n : Nat) : String := ⟨natDigits n⟩

/-- String form of an integer, as JavaScript's `String(n)` for integral `n`. -/
def intStr (i : Int) : String :=
  if i < 0 then "-" ++ natStr i.natAbs else natStr i.natAbs

/-! ## Segments, property access (`cursor[seg]`) and assignment -/

/-- One path segment: an object key (string) or an array index (number),
mirroring `Array<string | number>` in the source. -/
inductive Seg where
  | key : String → Seg
  | idx : Nat → Seg
deriving Repr, DecidableEq

/-- A structural path, `NodeData["path"]` in the source. -/
abbrev Path := List Seg

/-- The property key a segment denotes: JavaScript property access coerces a
numeric segment to its decimal string. -/
def segStr : Seg → String
  | .key s => s
  | .idx n => natStr n

/-- Length of a `JsonList`. -/
def jlLength : JsonList → Nat
  | .nil => 0
  | .cons _ t => jlLength t + 1

/-- `l[n]`, with default `d` when out of range. -/
def jlGetD : JsonList → Nat → JsonValue → JsonValue
  | .nil, _, d => d
  | .cons h _, 0, _ => h
  | .cons _ t, n + 1, d => jlGetD t n d

/-- First binding of key `s` in an object's member list; `undef` when absent,
as JavaScript property access. -/
def lookupObj : JsonMembers → String → JsonValue
  | .nil, _ => .undef
  | .cons k v t, s => if k = s then v else lookupObj t s

/-- `JsonValue`-level property access `cursor[seg]`: arrays are indexed by
canonical numerals, objects by key, everything else yields `undefined`. -/
def indexJs (v : JsonValue) (seg : Seg) : JsonValue :=
  match v with
  | .arr l =>
    match canonNat? (segStr seg).data with
    | some n => jlGetD l n .undef
    | none => .undef
  | .obj kvs => lookupObj kvs (segStr seg)
  | _ => (.undef)

/-- Array store `l[n] = v`: an in-range index updates in place, an
out-of-range index pads with holes (`undef`) exactly as JavaScript extends an
array on index assignment. -/
def arrSet : JsonList → Nat → JsonValue → JsonList
  | .nil, 0, v => .cons v .nil
  | .nil, n + 1, v => .cons .undef (arrSet .nil n v)
  | .cons _ t, 0, v => .cons v t
  | .cons h t, n + 1, v => .cons h (arrSet t n v)

/-- Object store `obj[k] = v`: an existing key keeps its position, a new key
is appended, as JavaScript property assignment. -/
def objInsert : JsonMembers → String → JsonValue → JsonMembers
  | .nil, k, v => .cons k v .nil
  | .cons k' v' t, k, v =>
    if k' = k then .cons k' v t else .cons k' v' (objInsert t k v)

/-- Property assignment `c[seg] = v` on a `JsonValue`.  Assigning a
non-numeral key on an array attaches a property invisible to JSON
serialization; the model drops it.  Assignment on a non-container is the
identity (never reached by `setValueAtPath`, whose cursors are containers). -/
def assign (c : JsonValue) (seg : Seg) (v : JsonValue) : JsonValue :=
  match c with
  | .arr l =>
    match canonNat? (segStr seg).data with
    | some n => .arr (arrSet l n v)
    | none => .arr l
  | .obj kvs => .obj (objInsert kvs (segStr seg) v)
  | c => c

/-! ## The source helpers -/

/-- `getValueAtPath` from the source: walk the path, returning `undefined`
(`undef`) as soon as the cursor is `null`/`undefined` (the loose `== null`
check) or a property is missing; the empty path returns the root. -/
def getValueAtPath : JsonValue → Path → JsonValue
  | root, [] => root
  | .null, _ :: _ => .undef
  | .undef, _ :: _ => .undef
  | root, seg :: rest => getValueAtPath (indexJs root seg) rest

/-- The shallow copy `Array.isArray(x) ? [...x] : { ...x }` used by
`setValueAtPath`: arrays and objects copy their entries, primitives spread to
an empty object. -/
def cloneJs : JsonValue → JsonValue
  | .arr l => .arr l
  | .obj kvs => .obj kvs
  | _ => .obj .nil

/-- The container materialized for a missing intermediate:
`typeof nextSeg === "number" ? [] : {}`. -/
def freshFor : Seg → JsonValue
  | .idx _ => .arr .nil
  | .key _ => .obj .nil

/-- The intermediate-step child of the `setValueAtPath` loop: a missing
(`=== undefined`) or `=== null` child is replaced by a fresh container chosen
by the next segment's type, any other child is shallow-copied before
descending. -/
def childFor (c : JsonValue) (seg next : Seg) : JsonValue :=
  match indexJs c seg with
  | .undef => freshFor next
  | .null => freshFor next
  | child => cloneJs child

/-- The walking loop of `setValueAtPath`, acting on the already-copied root:
intermediate segments materialize or copy the child (`childFor`) and store it
back; the final segment receives the value. -/
def setGo : JsonValue → Path → JsonValue → JsonValue
  | c, [], _ => c
  | c, [last], v => assign c last v
  | c, seg :: next :: rest, v =>
    assign c seg (setGo (childFor c seg next) (next :: rest) v)

/-- `setValueAtPath` from the source: empty path replaces the root wholesale;
otherwise shallow-copy the root and run the copy-on-write walk. -/
def setValueAtPath (root : JsonValue) (path : Path) (v : JsonValue) : JsonValue :=
  match path with
  | [] => v
  | _ :: _ => setGo (cloneJs root) path v

/-- `pathEquals` from the source: two optional paths are equal when both are
absent (`!a && !b`), or both present with the same length and strictly-equal
(`===`) segments pairwise; `===` on a number and a string is always false. -/
def pathEquals : Option Path → Option Path → Bool
  | none, none => true
  | none, some _ => false
  | some _, none => false
  | some a, some b => a.length == b.length && (a.zip b).all fun p => p.1 == p.2

/-- Does the first key-string sequence start the second (prefix test)? -/
def startsSeq : List String → List String → Bool
  | [], _ => true
  | _ :: _, [] => false
  | a :: as, b :: bs => a == b && startsSeq as bs

/-- Two paths are disjoint when neither addresses a prefix of the other,
segments being compared by the property key they denote (so `0` and `"0"`
alias the same slot and are not disjoint). -/
def disjointPaths (p q : Path) : Bool :=
  !startsSeq (p.map segStr) (q.map segStr)
    && !startsSeq (q.map segStr) (p.map segStr)

/-! ## Model of `JSON.stringify(value, null, 2)` -/

/-- Character form of an integer (`String(i)` / JSON number rendering). -/
def intChars (i : Int) : List Char :=
  if i < 0 then '-' :: natDigits i.natAbs else natDigits i.natAbs

/-- Lower-case hexadecimal digit character for `n < 16`. -/
def hexDigitChar (n : Nat) : Char :=
  if n < 10 then digitChar n else Char.ofNat (87 + n)

/-- `JSON.stringify`'s escape of one string character. -/
def escChar (c : Char) : List Char :=
  if c = '"' then ['\\', '"']
  else if c = '\\' then ['\\', '\\']
  else if c = '\n' then ['\\', 'n']
  else if c = '\t' then ['\\', 't']
  else if c = '\r' then ['\\', 'r']
  else if c.toNat = 8 then ['\\', 'b']
  else if c.toNat = 12 then ['\\', 'f']
  else if c.toNat < 32 then
    ['\\', 'u', '0', '0', hexDigitChar (c.toNat / 16), hexDigitChar (c.toNat % 16)]
  else [c]

/-- Escape every character of a string body. -/
def escStr : List Char → List Char
  | [] => []
  | c :: t => escChar c ++ escStr t

/-- The quoted, escaped JSON form of a string. -/
def quoteStr (s : String) : List Char := '"' :: (escStr s.data ++ ['"'])

/-- Two-space indentation at depth `d`. -/
def ws (d : Nat) : List Char := List.replicate (2 * d) ' '

/-- Join rendered pieces, each on its own line with indentation `ind`,
separated by commas, as `JSON.stringify` lays out array items and object
members. -/
def joinPieces (ind : List Char) : List (List Char) → List Char
  | [] => []
  | [p] => ind ++ p
  | p :: ps => ind ++ p ++ (',' :: '\n' :: joinPieces ind ps)

mutual
/-- `JSON.stringify(v, null, 2)` at depth `d`, as a character list.  A bare
`undefined` renders as `null` (it only occurs inside arrays, where
`JSON.stringify` renders holes and `undefined` elements as `null`);
object members whose value is `undefined` are skipped, as `JSON.stringify`
does. -/
def emitV (d : Nat) : JsonValue → List Char
  | .null => "null".data
  | .undef => "null".data
  | .bool true => "true".data
  | .bool false => "false".data
  | .num i => intChars i
  | .str s => quoteStr s
  | .arr l =>
    match itemPieces d l with
    | [] => "[]".data
    | ps => '[' :: '\n' :: (joinPieces (ws (d + 1)) ps ++ ('\n' :: (ws d ++ [']'])))
  | .obj m =>
    match memberPieces d m with
    | [] => "{}".data
    | ps => '{' :: '\n' :: (joinPieces (ws (d + 1)) ps ++ ('\n' :: (ws d ++ ['}'])))

/-- Rendered array items at depth `d + 1`. -/
def itemPieces (d : Nat) : JsonList → List (List Char)
  | .nil => []
  | .cons v t => emitV (d + 1) v :: itemPieces d t

/-- Rendered object members at depth `d + 1`; `undefined`-valued members are
skipped. -/
def memberPieces (d : Nat) : JsonMembers → List (List Char)
  | .nil => []
  | .cons k v t =>
    if v = .undef then memberPieces d t
    else (quoteStr k ++ (':' :: ' ' :: emitV (d + 1) v)) :: memberPieces d t
end

/-- `JSON.stringify(v, null, 2)` as a string. -/
def stringify2 (v : JsonValue) : String := ⟨emitV 0 v⟩

/-! ## Model of JavaScript template-string conversion (`String(v)`) -/

/-- `Array.prototype.join(",")` over the elements: `null` and `undefined`
render empty, a nested array joins recursively, an object renders as
`[object Object]`. -/
def jsToStringItems : JsonList → List Char
  | .nil => []
  | .cons v t =>
    (match v with
      | .null => []
      | .undef => []
      | .bool true => "true".data
      | .bool false => "false".data
      | .num i => intChars i
      | .str s => s.data
      | .arr l => jsToStringItems l
      | .obj _ => "[object Object]".data)
    ++ (match t with
      | .nil => []
      | .cons v2 t2 => ',' :: jsToStringItems (.cons v2 t2))

/-- JavaScript's `String(v)` (the `${"$"}{value}` template conversion). -/
def jsToString (v : JsonValue) : String :=
  match v with
  | .null => "null"
  | .undef => "undefined"
  | .bool true => "true"
  | .bool false => "false"
  | .num i => ⟨intChars i⟩
  | .str s => s
  | .arr l => ⟨jsToStringItems l⟩
  | .obj _ => "[object Object]"

/-! ## Model of `JSON.parse`

A recursive-descent reader of the JSON subset this development needs: all
structure, strings with the standard escapes, and integer numbers (the value
model has no floating point, so fraction/exponent forms fall out of the
model).  `fuel` bounds the recursion depth; the top-level entry gives one
unit per input character, which suffices (every nesting level consumes at
least one character). -/

/-- JSON whitespace. -/
def isWs (c : Char) : Bool := c = ' ' || c = '\n' || c = '\t' || c = '\r'

/-- Drop leading JSON whitespace. -/
def skipWs : List Char → List Char
  | [] => []
  | c :: t => if isWs c then skipWs t else c :: t

/-- Value of a hexadecimal digit character. -/
def hexVal? (c : Char) : Option Nat :=
  if 48 ≤ c.toNat ∧ c.toNat ≤ 57 then some (c.toNat - 48)
  else if 97 ≤ c.toNat ∧ c.toNat ≤ 102 then some (c.toNat - 87)
  else if 65 ≤ c.toNat ∧ c.toNat ≤ 70 then some (c.toNat - 55)
  else none

/-- Decode a single-character escape. -/
def escDecode? (e : Char) : Option Char :=
  if e = '"' then some '"'
  else if e = '\\' then some '\\'
  else if e = '/' then some '/'
  else if e = 'n' then some '\n'
  else if e = 't' then some '\t'
  else if e = 'r' then some '\r'
  else if e = 'b' then some (Char.ofNat 8)
  else if e = 'f' then some (Char.ofNat 12)
  else none

/-- Read a string body up to the closing quote, decoding escapes and
rejecting raw control characters, as `JSON.parse` does. -/
def parseStringChars : List Char → Option (List Char × List Char)
  | [] => none
  | c :: rest =>
    if c = '"' then some ([], rest)
    else if c = '\\' then
      match rest with
      | [] => none
      | e :: rest2 =>
        if e = 'u' then
          match rest2 with
          | h1 :: h2 :: h3 :: h4 :: rest3 =>
            (match hexVal? h1, hexVal? h2, hexVal? h3, hexVal? h4 with
              | some a, some b, some cc, some dd =>
                (parseStringChars rest3).map
                  (fun p => (Char.ofNat (((a * 16 + b) * 16 + cc) * 16 + dd) :: p.1, p.2))
              | _, _, _, _ => none)
          | _ => none
        else
          match escDecode? e with
          | some ch => (parseStringChars rest2).map (fun p => (ch :: p.1, p.2))
          | none => none
    else if c.toNat < 32 then none
    else (parseStringChars rest).map (fun p => (c :: p.1, p.2))

/-- Split leading decimal digits from the rest. -/
def takeDigits : List Char → List Char × List Char
  | [] => ([], [])
  | c :: t =>
    if isDigit c then
      match takeDigits t with
      | (d, r) => (c :: d, r)
    else ([], c :: t)

/-- Read an unsigned JSON integer: a single `0`, or a nonzero leading digit
followed by digits (a leading zero before further digits stops after the
zero, making `01` fail at the structural level, as `JSON.parse` rejects it). -/
def parsePosNum : List Char → Option (Nat × List Char)
  | [] => none
  | c :: rest =>
    if c = '0' then some (0, rest)
    else
      match takeDigits (c :: rest) with
      | ([], _) => none
      | (ds, r) => some (digitsToNat 0 ds, r)

/-- Read a JSON integer with optional minus sign. -/
def parseNum : List Char → Option (Int × List Char)
  | [] => none
  | c :: rest =>
    if c = '-' then (parsePosNum rest).map (fun p => (-(p.1 : Int), p.2))
    else (parsePosNum (c :: rest)).map (fun p => ((p.1 : Int), p.2))

/-- Does `c` start a number? -/
def startsNum (c : Char) : Bool := c = '-' || isDigit c

/-- Build an object from raw members by successive property assignment, as
`JSON.parse` does (a duplicate key overwrites in place, keeping its first
position). -/
def buildObjAux (acc : JsonMembers) : JsonMembers → JsonMembers
  | .nil => acc
  | .cons k v t => buildObjAux (objInsert acc k v) t

/-- Object construction from parsed raw members. -/
def buildObj (m : JsonMembers) : JsonMembers := buildObjAux .nil m

mutual
/-- Read one JSON value. -/
def parseValue : Nat → List Char → Option (JsonValue × List Char)
  | 0, _ => none
  | fuel + 1, cs =>
    match cs with
    | [] => none
    | c :: rest =>
      if c = 'n' then
        match rest with
        | 'u' :: 'l' :: 'l' :: r => some (.null, r)
        | _ => none
      else if c = 't' then
        match rest with
        | 'r' :: 'u' :: 'e' :: r => some (.bool true, r)
        | _ => none
      else if c = 'f' then
        match rest with
        | 'a' :: 'l' :: 's' :: 'e' :: r => some (.bool false, r)
        | _ => none
      else if c = '"' then
        (parseStringChars rest).map (fun p => (.str ⟨p.1⟩, p.2))
      else if c = '[' then
        match skipWs rest with
        | [] => none
        | c2 :: r1 =>
          if c2 = ']' then some (.arr .nil, r1)
          else (parseItems fuel (c2 :: r1)).map (fun p => (.arr p.1, p.2))
      else if c = '{' then
        match skipWs rest with
        | [] => none
        | c2 :: r1 =>
          if c2 = '}' then some (.obj .nil, r1)
          else (parseMembersRaw fuel (c2 :: r1)).map
            (fun p => (.obj (buildObj p.1), p.2))
      else if startsNum c then
        (parseNum (c :: rest)).map (fun p => (.num p.1, p.2))
      else none

/-- Read one or more comma-separated array items up to `]`. -/
def parseItems : Nat → List Char → Option (JsonList × List Char)
  | 0, _ => none
  | fuel + 1, cs =>
    match parseValue fuel cs with
    | none => none
    | some (v, r) =>
      match skipWs r with
      | [] => none
      | c :: r2 =>
        if c = ',' then
          match parseItems fuel (skipWs r2) with
          | none => none
          | some (l, r3) => some (.cons v l, r3)
        else if c = ']' then some (.cons v .nil, r2)
        else none

/-- Read one or more comma-separated `"key": value` members up to `}`,
in source order. -/
def parseMembersRaw : Nat → List Char → Option (JsonMembers × List Char)
  | 0, _ => none
  | fuel + 1, cs =>
    match cs with
    | [] => none
    | c :: r0 =>
      if c = '"' then
        match parseStringChars r0 with
        | none => none
        | some (k, r1) =>
          match skipWs r1 with
          | [] => none
          | c2 :: r2 =>
            if c2 = ':' then
              match parseValue fuel (skipWs r2) with
              | none => none
              | some (v, r3) =>
                match skipWs r3 with
                | [] => none
                | c3 :: r4 =>
                  if c3 = ',' then
                    match parseMembersRaw fuel (skipWs r4) with
                    | none => none
                    | some (m, r5) => some (.cons ⟨k⟩ v m, r5)
                  else if c3 = '}' then some (.cons ⟨k⟩ v .nil, r4)
                  else none
            else none
      else none
end

/-- `JSON.parse`: skip surrounding whitespace, read one value, require the
input to be fully consumed. -/
def parseJson (s : String) : Option JsonValue :=
  match parseValue (s.data.length + 1) (skipWs s.data) with
  | some (v, rest) =>
    (match skipWs rest with
      | [] => some v
      | _ => none)
  | none => none

/-! ## Well-formed values

`JSON.parse` output never contains `undefined` and never has duplicate object
keys; these are the values on which serialize-then-parse is the identity. -/

/-- Does the member list bind key `s`? -/
def hasKey : JsonMembers → String → Bool
  | .nil, _ => false
  | .cons k _ t, s => k == s || hasKey t s

/-- Are all keys distinct? -/
def noDupKeys : JsonMembers → Bool
  | .nil => true
  | .cons k _ t => !hasKey t k && noDupKeys t

mutual
/-- Well-formed value: no `undefined` anywhere, no duplicate object keys. -/
def wfV : JsonValue → Bool
  | .null => true
  | .undef => false
  | .bool _ => true
  | .num _ => true
  | .str _ => true
  | .arr l => wfL l
  | .obj m => noDupKeys m && wfM m

/-- Well-formedness of array elements. -/
def wfL : JsonList → Bool
  | .nil => true
  | .cons v t => wfV v && wfL t

/-- Well-formedness of member values. -/
def wfM : JsonMembers → Bool
  | .nil => true
  | .cons _ v t => wfV v && wfM t
end

mutual
/-- Fuel needed by `parseValue` to read this value back. -/
def nfV : JsonValue → Nat
  | .arr l => nfL l + 1
  | .obj m => nfM m + 1
  | _ => 1

/-- Fuel needed by `parseItems`. -/
def nfL : JsonList → Nat
  | .nil => 1
  | .cons v t => max (nfV v) (nfL t) + 1

/-- Fuel needed by `parseMembersRaw`. -/
def nfM : JsonMembers → Nat
  | .nil => 1
  | .cons _ v t => max (nfV v) (nfM t) + 1
end

/-! ## NodeTextNormalizer and EditCommit -/

/-- One displayed row of a node (`NodeData["text"]` entries): an optional
key (absent for the synthetic single-value case), a value, and a type tag. -/
structure NodeRow where
  key : Option String
  value : JsonValue
  rowType : String
deriving DecidableEq

/-- JavaScript truthiness of `row.key`: absent and the empty string are
falsy. -/
def keyTruthy : Option String → Bool
  | none => false
  | some s => !(s == "")

/-- One iteration of `normalizeNodeData`'s `forEach`: a row whose type is
neither `array` nor `object` and whose key is truthy contributes
`obj[row.key] = row.value`. -/
def rowStep (acc : JsonMembers) (row : NodeRow) : JsonMembers :=
  if !(row.rowType == "array") && !(row.rowType == "object") then
    match row.key with
    | some k => if !(k == "") then objInsert acc k row.value else acc
    | none => acc
  else acc

/-- The object accumulated by `normalizeNodeData`'s `forEach`. -/
def rowsObj (rows : List NodeRow) : JsonMembers :=
  rows.foldl rowStep .nil

/-- The `nodeRows.length === 1 && !nodeRows[0].key` test shared by
`normalizeNodeData` and `handleSave`. -/
def singleKeyless : List NodeRow → Bool
  | [r] => !keyTruthy r.key
  | _ => false

/-- `normalizeNodeData` from the source: `"{}"` for no rows, the raw
template-string form of the value for a single keyless row, otherwise the
2-space-indented serialization of the accumulated object. -/
def normalizeNodeData (nodeRows : List NodeRow) : String :=
  match nodeRows with
  | [] => "{}"
  | [r] =>
    if keyTruthy r.key then stringify2 (.obj (rowsObj [r]))
    else jsToString r.value
  | rows => stringify2 (.obj (rowsObj rows))

/-- The selected node as `handleSave` consumes it: its path and rows
(`nodeData.path`, `nodeData.text ?? []`). -/
structure NodeDataM where
  path : Path
  text : List NodeRow

/-- `typeof x === "object" && x !== null && !Array.isArray(x)`. -/
def isPlainObj : JsonValue → Bool
  | .obj _ => true
  | _ => false

/-- The object spread `{ ...target, ...parsed }`: each member of `parsed` is
assigned onto `target` in order, existing keys keeping their position. -/
def mergeObj (target : JsonMembers) : JsonMembers → JsonMembers
  | .nil => target
  | .cons k v t => mergeObj (objInsert target k v) t

instance : DecidableEq (Except String String) := fun a b =>
  match a, b with
  | .ok x, .ok y =>
    if h : x = y then .isTrue (congrArg Except.ok h)
    else .isFalse (fun he => h (Except.ok.inj he))
  | .error x, .error y =>
    if h : x = y then .isTrue (congrArg Except.error h)
    else .isFalse (fun he => h (Except.error.inj he))
  | .ok _, .error _ => .isFalse Except.noConfusion
  | .error _, .ok _ => .isFalse Except.noConfusion

/-- `handleSave` from the source, as a function from the current document
text, the selected node, and the edited text to either an error message or
the new document text.  The edited text is parsed first (failure is the
"Invalid JSON" error); the current document text falls back to an empty
object when it fails to parse; a missing node is the "No target node
selected" error; then the single-keyless-row case replaces, and otherwise a
plain-object-into-plain-object edit shallow-merges while every other shape
replaces.  The new document is serialized with 2-space indentation. -/
def handleSave (docText : String) (nodeData : Option NodeDataM)
    (editedText : String) : Except String String :=
  match parseJson editedText with
  | none => .error "Invalid JSON — please fix syntax before saving"
  | some parsed =>
    let rootObj := (parseJson docText).getD (.obj .nil)
    match nodeData with
    | none => .error "No target node selected"
    | some nd =>
      if singleKeyless nd.text then
        .ok (stringify2 (setValueAtPath rootObj nd.path parsed))
      else
        match parsed, getValueAtPath rootObj nd.path with
        | .obj p, .obj t =>
          .ok (stringify2 (setValueAtPath rootObj nd.path (.obj (mergeObj t p))))
        | _, _ => .ok (stringify2 (setValueAtPath rootObj nd.path parsed))

/-- The root `handleSave` writes back once the edited text has parsed and a
node is selected: replace for the single-keyless case, shallow-merge when
both the parsed value and the current value at the path are plain objects,
replace otherwise. -/
def newRootFor (rootObj : JsonValue) (nd : NodeDataM) (parsed : JsonValue) :
    JsonValue :=
  if singleKeyless nd.text then setValueAtPath rootObj nd.path parsed
  else
    match parsed, getValueAtPath rootObj nd.path with
    | .obj p, .obj t => setValueAtPath rootObj nd.path (.obj (mergeObj t p))
    | _, _ => setValueAtPath rootObj nd.path parsed

/-- Safe continuation for the greedy number reader: the remainder is empty or
starts with a non-digit. -/
def headSafe : List Char → Bool
  | [] => true
  | c :: _ => !isDigit c

/-- The character stream an array body presents to `parseItems` (first item
through the closing bracket), followed by `rest`. -/
def itemsBody (d : Nat) (rest : List Char) : JsonList → List Char
  | .nil => []
  | .cons v .nil => emitV (d + 1) v ++ ('\n' :: (ws d ++ (']' :: rest)))
  | .cons v t => emitV (d + 1) v ++ (',' :: '\n' :: (ws (d + 1) ++ itemsBody d rest t))

/-- The character stream an object body presents to `parseMembersRaw` (first
member through the closing brace), followed by `rest`. -/
def membersBody (d : Nat) (rest : List Char) : JsonMembers → List Char
  | .nil => []
  | .cons k v .nil =>
    quoteStr k ++ (':' :: ' ' :: (emitV (d + 1) v ++ ('\n' :: (ws d ++ ('}' :: rest)))))
  | .cons k v t =>
    quoteStr k ++ (':' :: ' ' :: (emitV (d + 1) v
      ++ (',' :: '\n' :: (ws (d + 1) ++ membersBody d rest t))))

/-- Concatenation of member lists. -/
def memAppend : JsonMembers → JsonMembers → JsonMembers
  | .nil, b => b
  | .cons k v t, b => .cons k v (memAppend t b)

/-- A row that contributes an entry to the flat object form: scalar-typed
with a truthy key. -/
def goodRow (r : NodeRow) : Bool :=
  (!(r.rowType == "array") && !(r.rowType == "object")) && keyTruthy r.key

/-! ## Numeral lemmas -/

theorem charToNat_inj {a b : Char} (h : a.toNat = b.toNat) : a = b :=
  Char.ext (UInt32.toNat.inj h)

theorem toNat_digitChar {d : Nat} (h : d < 10) : (digitChar d).toNat = 48 + d := by
  interval_cases d <;> decide

theorem isDigit_digitChar {d : Nat} (h : d < 10) : isDigit (digitChar d) = true := by
  interval_cases d <;> decide

theorem digitChar_ne_zero {d : Nat} (h1 : 1 ≤ d) (h2 : d < 10) : digitChar d ≠ '0' := by
  interval_cases d <;> decide

theorem eq_digitChar_of_isDigit {c : Char} (h : isDigit c = true) :
    digitChar (c.toNat - 48) = c := by
  have hr : 48 ≤ c.toNat ∧ c.toNat ≤ 57 := by
    simpa [isDigit, Bool.and_eq_true, decide_eq_true_eq] using h
  apply charToNat_inj
  rw [toNat_digitChar (by omega)]
  omega

theorem natDigitsAux_irrel (n : Nat) : ∀ f1 f2, n < f1 → n < f2 →
    natDigitsAux f1 n = natDigitsAux f2 n := by
  induction n using Nat.strong_induction_on with
  | _ n ih =>
    intro f1 f2 h1 h2
    match f1, f2 with
    | a + 1, b + 1 =>
      by_cases h : n < 10
      · simp [natDigitsAux, h]
      · have hd : n / 10 < n := Nat.div_lt_self (by omega) (by omega)
        simp only [natDigitsAux, if_neg h]
        rw [ih (n / 10) hd a b (by omega) (by omega)]

theorem natDigits_low {n : Nat} (h : n < 10) : natDigits n = [digitChar n] := by
  simp [natDigits, natDigitsAux, h]

theorem natDigits_high {n : Nat} (h : 10 ≤ n) :
    natDigits n = natDigits (n / 10) ++ [digitChar (n % 10)] := by
  have hd : n / 10 < n := Nat.div_lt_self (by omega) (by omega)
  show natDigitsAux (n + 1) n = _
  rw [show natDigitsAux (n + 1) n
      = natDigitsAux n (n / 10) ++ [digitChar (n % 10)] by
    simp [natDigitsAux, Nat.not_lt.2 h]]
  rw [natDigitsAux_irrel (n / 10) n (n / 10 + 1) (by omega) (by omega)]
  rfl

theorem natDigits_ne_nil (n : Nat) : natDigits n ≠ [] := by
  by_cases h : n < 10
  · simp [natDigits_low h]
  · simp [natDigits_high (by omega : 10 ≤ n)]

theorem digitsToNat_cons (a : Nat) (c : Char) (t : List Char) :
    digitsToNat a (c :: t) = digitsToNat (a * 10 + (c.toNat - 48)) t := rfl

theorem digitsToNat_nil (a : Nat) : digitsToNat a [] = a := rfl

theorem digitsToNat_append (a : Nat) (xs ys : List Char) :
    digitsToNat a (xs ++ ys) = digitsToNat (digitsToNat a xs) ys := by
  induction xs generalizing a with
  | nil => rfl
  | cons c t ih =>
    rw [List.cons_append, digitsToNat_cons, ih, digitsToNat_cons]

theorem digitsToNat_natDigits (n : Nat) : ∀ a,
    digitsToNat a (natDigits n) = a * 10 ^ (natDigits n).length + n := by
  induction n using Nat.strong_induction_on with
  | _ n ih =>
    intro a
    by_cases h : n < 10
    · rw [natDigits_low h, digitsToNat_cons, digitsToNat_nil, toNat_digitChar h,
        List.length_singleton, pow_one]
      omega
    · have hd : n / 10 < n := Nat.div_lt_self (by omega) (by omega)
      rw [natDigits_high (by omega), digitsToNat_append, ih (n / 10) hd a,
        digitsToNat_cons, digitsToNat_nil, List.length_append,
        toNat_digitChar (Nat.mod_lt n (by omega)), List.length_singleton,
        pow_succ, ← mul_assoc]
      generalize a * 10 ^ (natDigits (n / 10)).length = K
      omega

theorem natDigits_all_digits (n : Nat) : ∀ c ∈ natDigits n, isDigit c = true := by
  induction n using Nat.strong_induction_on with
  | _ n ih =>
    by_cases h : n < 10
    · intro c hc
      rw [natDigits_low h] at hc
      simp at hc
      subst hc
      exact isDigit_digitChar h
    · intro c hc
      rw [natDigits_high (by omega)] at hc
      rcases List.mem_append.1 hc with h1 | h1
      · exact ih (n / 10) (Nat.div_lt_self (by omega) (by omega)) c h1
      · simp at h1
        subst h1
        exact isDigit_digitChar (Nat.mod_lt n (by omega))

theorem natDigits_head {n : Nat} (h1 : 1 ≤ n) :
    ∀ {c : Char} {t : List Char}, natDigits n = c :: t → c ≠ '0' := by
  induction n using Nat.strong_induction_on with
  | _ n ih =>
    intro c t he
    by_cases h : n < 10
    · rw [natDigits_low h] at he
      cases he
      exact digitChar_ne_zero h1 h
    · rw [natDigits_high (by omega)] at he
      obtain ⟨c', t', he'⟩ : ∃ c' t', natDigits (n / 10) = c' :: t' := by
        cases hh : natDigits (n / 10) with
        | nil => exact absurd hh (natDigits_ne_nil _)
        | cons a b => exact ⟨a, b, rfl⟩
      rw [he'] at he
      simp at he
      obtain ⟨rfl, -⟩ := he
      exact ih (n / 10) (Nat.div_lt_self (by omega) (by omega))
        (by omega : 1 ≤ n / 10) he'

theorem canonNat?_natDigits (n : Nat) : canonNat? (natDigits n) = some n := by
  by_cases h0 : n = 0
  · subst h0
    decide
  · obtain ⟨c, t, he⟩ : ∃ c t, natDigits n = c :: t := by
      cases hh : natDigits n with
      | nil => exact absurd hh (natDigits_ne_nil _)
      | cons a b => exact ⟨a, b, rfl⟩
    have hc0 : c ≠ '0' := natDigits_head (by omega) he
    have hcd : isDigit c = true := natDigits_all_digits n c (he ▸ List.mem_cons_self c t)
    have htd : t.all isDigit = true := by
      rw [List.all_eq_true]
      intro x hx
      exact natDigits_all_digits n x (he ▸ List.mem_cons_of_mem c hx)
    rw [he]
    show canonNat? (c :: t) = some n
    rw [canonNat?]
    rw [if_neg (by simp [hc0])]
    rw [if_pos (by simp [hcd, hc0, htd])]
    have hd := digitsToNat_natDigits n 0
    rw [he] at hd
    simpa using hd

theorem le_digitsToNat (l : List Char) : ∀ a, a * 10 ^ l.length ≤ digitsToNat a l := by
  induction l with
  | nil =>
    intro a
    rw [List.length_nil, pow_zero, mul_one, digitsToNat_nil]
  | cons c t ih =>
    intro a
    have h1 : a * 10 ^ (c :: t).length = (a * 10) * 10 ^ t.length := by
      rw [List.length_cons, pow_succ]
      ring
    rw [h1, digitsToNat_cons]
    calc (a * 10) * 10 ^ t.length
        ≤ (a * 10 + (c.toNat - 48)) * 10 ^ t.length :=
          Nat.mul_le_mul (by omega) (Nat.le_refl _)
    _ ≤ digitsToNat (a * 10 + (c.toNat - 48)) t := ih _

theorem natDigits_digitsToNat {c : Char} (hcd : isDigit c = true) (hc0 : c ≠ '0') :
    ∀ t : List Char, (∀ x ∈ t, isDigit x = true) →
      natDigits (digitsToNat 0 (c :: t)) = c :: t := by
  have hcr : 48 ≤ c.toNat ∧ c.toNat ≤ 57 := by
    simpa [isDigit, Bool.and_eq_true, decide_eq_true_eq] using hcd
  have hcv : 1 ≤ c.toNat - 48 ∧ c.toNat - 48 < 10 := by
    constructor
    · by_contra hcon
      apply hc0
      have : c.toNat = 48 := by omega
      have := eq_digitChar_of_isDigit hcd
      rw [this.symm, ‹c.toNat = 48›]
      decide
    · omega
  intro t
  induction t using List.reverseRecOn with
  | nil =>
    intro _
    rw [digitsToNat_cons, digitsToNat_nil, Nat.zero_mul, Nat.zero_add,
      natDigits_low (by omega), eq_digitChar_of_isDigit hcd]
  | append_singleton ds d ihds =>
    intro hall
    have hdd : isDigit d = true := hall d (by simp)
    have hdr : 48 ≤ d.toNat ∧ d.toNat ≤ 57 := by
      simpa [isDigit, Bool.and_eq_true, decide_eq_true_eq] using hdd
    have hds : ∀ x ∈ ds, isDigit x = true := fun x hx => hall x (by simp [hx])
    have hN : 1 ≤ digitsToNat 0 (c :: ds) := by
      have := le_digitsToNat (c :: ds) 0
      have h2 : digitsToNat 0 (c :: ds) = digitsToNat (c.toNat - 48) ds := by
        rw [digitsToNat_cons, Nat.zero_mul, Nat.zero_add]
      rw [h2]
      calc 1 ≤ 1 * 10 ^ ds.length := by
            rw [one_mul]
            exact Nat.one_le_pow _ _ (by omega)
      _ ≤ (c.toNat - 48) * 10 ^ ds.length :=
          Nat.mul_le_mul (by omega) (Nat.le_refl _)
      _ ≤ digitsToNat (c.toNat - 48) ds := le_digitsToNat ds _
    have key : digitsToNat 0 (c :: (ds ++ [d]))
        = digitsToNat 0 (c :: ds) * 10 + (d.toNat - 48) := by
      rw [← List.cons_append, digitsToNat_append, digitsToNat_cons, digitsToNat_nil]
    rw [key]
    set N := digitsToNat 0 (c :: ds) with hNdef
    have hbig : 10 ≤ N * 10 + (d.toNat - 48) := by omega
    rw [natDigits_high hbig]
    have hdiv : (N * 10 + (d.toNat - 48)) / 10 = N := by omega
    have hmod : (N * 10 + (d.toNat - 48)) % 10 = d.toNat - 48 := by omega
    rw [hdiv, hmod, ihds hds]
    rw [eq_digitChar_of_isDigit hdd]
    simp

theorem canonNat?_inv {cs : List Char} {n : Nat} (h : canonNat? cs = some n) :
    cs = natDigits n := by
  match cs with
  | [] => simp [canonNat?] at h
  | c :: t =>
    rw [canonNat?] at h
    by_cases h1 : c = '0' ∧ t = []
    · rw [if_pos h1] at h
      obtain ⟨rfl, rfl⟩ := h1
      cases h
      decide
    · rw [if_neg h1] at h
      by_cases h2 : (isDigit c && (c ≠ '0' : Bool) && t.all isDigit) = true
      · rw [if_pos h2] at h
        cases h
        simp only [Bool.and_eq_true, decide_eq_true_eq] at h2
        obtain ⟨⟨hcd, hc0⟩, htd⟩ := h2
        rw [List.all_eq_true] at htd
        exact (natDigits_digitsToNat hcd hc0 t fun x hx => htd x hx).symm
      · rw [if_neg h2] at h
        cases h

theorem canonNat?_inj {a b : List Char} {n : Nat}
    (ha : canonNat? a = some n) (hb : canonNat? b = some n) : a = b := by
  rw [canonNat?_inv ha, canonNat?_inv hb]

theorem canonNat?_segStr_idx (n : Nat) :
    canonNat? (segStr (.idx n)).data = some n := canonNat?_natDigits n

/-! ## Access and assignment lemmas -/

theorem getValueAtPath_nil (root : JsonValue) : getValueAtPath root [] = root := by
  cases root <;> rfl

theorem getValueAtPath_undef (p : Path) : getValueAtPath .undef p = .undef := by
  cases p <;> rfl

theorem getValueAtPath_null_cons (s : Seg) (r : Path) :
    getValueAtPath .null (s :: r) = .undef := rfl

theorem indexJs_undef (s : Seg) : indexJs .undef s = .undef := rfl

theorem indexJs_null (s : Seg) : indexJs .null s = .undef := rfl

theorem getValueAtPath_cons (root : JsonValue) (s : Seg) (r : Path) :
    getValueAtPath root (s :: r) = getValueAtPath (indexJs root s) r := by
  cases root with
  | null => rw [getValueAtPath_null_cons, indexJs_null, getValueAtPath_undef]
  | undef => rw [getValueAtPath_undef, indexJs_undef, getValueAtPath_undef]
  | bool b => rfl
  | num i => rfl
  | str s' => rfl
  | arr l => rfl
  | obj m => rfl

theorem indexJs_segStr {s t : Seg} (h : segStr s = segStr t) (c : JsonValue) :
    indexJs c s = indexJs c t := by
  cases c <;> simp only [indexJs, h]

theorem assign_segStr {s t : Seg} (h : segStr s = segStr t) (c v : JsonValue) :
    assign c s v = assign c t v := by
  cases c <;> simp only [assign, h]

theorem indexJs_cloneJs (x : JsonValue) (s : Seg) : indexJs (cloneJs x) s = indexJs x s := by
  cases x <;> rfl

theorem getValueAtPath_cloneJs (x : JsonValue) {p : Path} (h : p ≠ []) :
    getValueAtPath (cloneJs x) p = getValueAtPath x p := by
  match p with
  | [] => exact absurd rfl h
  | s :: r => rw [getValueAtPath_cons, getValueAtPath_cons, indexJs_cloneJs]

theorem getValueAtPath_freshFor (x : Seg) {p : Path} (h : p ≠ []) :
    getValueAtPath (freshFor x) p = .undef := by
  match p with
  | s :: r =>
    cases x with
    | idx n =>
      rw [freshFor, getValueAtPath_cons]
      have hi : indexJs (.arr .nil) s = .undef := by
        rw [indexJs]
        cases canonNat? (segStr s).data with
        | none => rfl
        | some k => rfl
      rw [hi, getValueAtPath_undef]
    | key k =>
      rw [freshFor, getValueAtPath_cons]
      rw [show indexJs (.obj .nil) s = .undef from rfl, getValueAtPath_undef]

theorem lookupObj_objInsert_self : ∀ (m : JsonMembers) (k : String) (v : JsonValue),
    lookupObj (objInsert m k v) k = v
  | .nil, k, v => by rw [objInsert, lookupObj, if_pos rfl]
  | .cons k' v' t, k, v => by
    by_cases h : k' = k
    · subst h
      rw [objInsert, if_pos rfl, lookupObj, if_pos rfl]
    · rw [objInsert, if_neg h, lookupObj, if_neg h]
      exact lookupObj_objInsert_self t k v

theorem lookupObj_objInsert_ne : ∀ (m : JsonMembers) {k k' : String}, k ≠ k' →
    ∀ (v : JsonValue), lookupObj (objInsert m k v) k' = lookupObj m k'
  | .nil, k, k', h, v => by
    simp [objInsert, lookupObj, h]
  | .cons k0 v0 t, k, k', h, v => by
    by_cases h0 : k0 = k
    · subst h0
      rw [objInsert, if_pos rfl, lookupObj, if_neg h, lookupObj, if_neg h]
    · rw [objInsert, if_neg h0, lookupObj, lookupObj]
      by_cases h1 : k0 = k'
      · rw [if_pos h1, if_pos h1]
      · rw [if_neg h1, if_neg h1]
        exact lookupObj_objInsert_ne t h v

theorem jlGetD_arrSet_self : ∀ (l : JsonList) (n : Nat) (v d : JsonValue),
    jlGetD (arrSet l n v) n d = v
  | .nil, 0, _, _ => rfl
  | .nil, n + 1, v, d => jlGetD_arrSet_self .nil n v d
  | .cons _ _, 0, _, _ => rfl
  | .cons _ t, n + 1, v, d => jlGetD_arrSet_self t n v d

theorem jlGetD_arrSet_ne_nil : ∀ (n m : Nat), n ≠ m → ∀ (v : JsonValue),
    jlGetD (arrSet .nil n v) m .undef = jlGetD .nil m .undef
  | 0, 0, h, _ => absurd rfl h
  | 0, _ + 1, _, _ => rfl
  | _ + 1, 0, _, _ => rfl
  | n + 1, m + 1, h, v => jlGetD_arrSet_ne_nil n m (fun he => h (by omega)) v

theorem jlGetD_arrSet_ne : ∀ (l : JsonList) {n m : Nat}, n ≠ m → ∀ (v : JsonValue),
    jlGetD (arrSet l n v) m .undef = jlGetD l m .undef
  | .nil, n, m, h, v => jlGetD_arrSet_ne_nil n m h v
  | .cons _ _, 0, 0, h, _ => absurd rfl h
  | .cons _ _, 0, _ + 1, _, _ => rfl
  | .cons _ _, _ + 1, 0, _, _ => rfl
  | .cons _ t, n + 1, m + 1, h, v => jlGetD_arrSet_ne t (fun he => h (by omega)) v

theorem indexJs_assign_ne {s t : Seg} (h : segStr s ≠ segStr t) (c v : JsonValue) :
    indexJs (assign c s v) t = indexJs c t := by
  cases c with
  | arr l =>
    rw [assign]
    cases hs : canonNat? (segStr s).data with
    | none => rfl
    | some n =>
      rw [indexJs, indexJs]
      cases ht : canonNat? (segStr t).data with
      | none => rfl
      | some m =>
        have hnm : n ≠ m := fun he =>
          h (String.ext (canonNat?_inj hs (he ▸ ht)))
        exact jlGetD_arrSet_ne l hnm v
  | obj m =>
    rw [assign, indexJs, indexJs]
    exact lookupObj_objInsert_ne m (fun he => h he) v
  | null => rfl
  | undef => rfl
  | bool b => rfl
  | num i => rfl
  | str s => rfl

theorem getValueAtPath_null {p : Path} (h : p ≠ []) :
    getValueAtPath .null p = .undef := by
  match p with
  | t :: r => rfl

theorem indexJs_assign_self {c : JsonValue} {s : Seg} (h : indexJs c s ≠ .undef)
    (X : JsonValue) : indexJs (assign c s X) s = X := by
  cases c with
  | obj m =>
    simp only [assign, indexJs]
    exact lookupObj_objInsert_self m (segStr s) X
  | arr l =>
    cases hcn : canonNat? (segStr s).data with
    | none => exact absurd (by rw [indexJs, hcn]) h
    | some n =>
      simp only [assign, hcn, indexJs]
      exact jlGetD_arrSet_self l n X .undef
  | null => exact absurd rfl h
  | undef => exact absurd rfl h
  | bool b => exact absurd rfl h
  | num i => exact absurd rfl h
  | str t => exact absurd rfl h

theorem indexJs_assign_general (c : JsonValue) (s : Seg) (X : JsonValue) :
    indexJs (assign c s X) s = X ∨ (assign c s X = c ∧ indexJs c s = .undef) := by
  cases c with
  | obj m =>
    left
    simp only [assign, indexJs]
    exact lookupObj_objInsert_self m (segStr s) X
  | arr l =>
    cases hcn : canonNat? (segStr s).data with
    | none =>
      right
      constructor
      · simp only [assign, hcn]
      · simp only [indexJs, hcn]
    | some n =>
      left
      simp only [assign, hcn, indexJs]
      exact jlGetD_arrSet_self l n X .undef
  | null => exact .inr ⟨rfl, rfl⟩
  | undef => exact .inr ⟨rfl, rfl⟩
  | bool b => exact .inr ⟨rfl, rfl⟩
  | num i => exact .inr ⟨rfl, rfl⟩
  | str t => exact .inr ⟨rfl, rfl⟩

theorem childFor_undef {c : JsonValue} {s : Seg} (h : indexJs c s = .undef)
    (next : Seg) : childFor c s next = freshFor next := by
  simp only [childFor, h]

theorem childFor_null {c : JsonValue} {s : Seg} (h : indexJs c s = .null)
    (next : Seg) : childFor c s next = freshFor next := by
  simp only [childFor, h]

theorem childFor_of_ne {c : JsonValue} {s : Seg} (h1 : indexJs c s ≠ .undef)
    (h2 : indexJs c s ≠ .null) (next : Seg) :
    childFor c s next = cloneJs (indexJs c s) := by
  cases hi : indexJs c s with
  | undef => exact absurd hi h1
  | null => exact absurd hi h2
  | bool b => simp only [childFor, hi]
  | num i => simp only [childFor, hi]
  | str t => simp only [childFor, hi]
  | arr l => simp only [childFor, hi]
  | obj m => simp only [childFor, hi]

theorem setGo_single (c : JsonValue) (s : Seg) (v : JsonValue) :
    setGo c [s] v = assign c s v := rfl

theorem setGo_cons2 (c : JsonValue) (s next : Seg) (rest : Path) (v : JsonValue) :
    setGo c (s :: next :: rest) v
      = assign c s (setGo (childFor c s next) (next :: rest) v) := rfl

theorem setGo_get : ∀ (p : Path) (c v : JsonValue), p ≠ [] →
    getValueAtPath c p ≠ .undef → getValueAtPath (setGo c p v) p = v
  | [], _, _, hne, _ => absurd rfl hne
  | [s], c, v, _, hres => by
    rw [getValueAtPath_cons, getValueAtPath_nil] at hres
    rw [setGo_single, getValueAtPath_cons, getValueAtPath_nil]
    exact indexJs_assign_self hres v
  | s :: next :: rest, c, v, _, hres => by
    rw [getValueAtPath_cons] at hres
    have h1 : indexJs c s ≠ .undef := fun he => hres (by rw [he, getValueAtPath_undef])
    have h2 : indexJs c s ≠ .null := fun he =>
      hres (by rw [he, getValueAtPath_null_cons])
    have hchild : getValueAtPath (cloneJs (indexJs c s)) (next :: rest) ≠ .undef := by
      rw [getValueAtPath_cloneJs _ (by simp)]
      exact hres
    have hrec := setGo_get (next :: rest) (cloneJs (indexJs c s)) v (by simp) hchild
    rw [setGo_cons2, childFor_of_ne h1 h2, getValueAtPath_cons,
      indexJs_assign_self h1]
    exact hrec

theorem disjoint_head {s t : Seg} {p' q' : Path}
    (h : disjointPaths (s :: p') (t :: q') = true) :
    segStr s ≠ segStr t
      ∨ (segStr s = segStr t ∧ p' ≠ [] ∧ q' ≠ [] ∧ disjointPaths p' q' = true) := by
  by_cases he : segStr s = segStr t
  · right
    simp only [disjointPaths, List.map_cons, startsSeq, he, beq_self_eq_true,
      Bool.true_and, Bool.and_eq_true, Bool.not_eq_true'] at h
    refine ⟨he, ?_, ?_, ?_⟩
    · rintro rfl
      rw [show startsSeq (List.map segStr []) (List.map segStr q') = true from rfl] at h
      exact absurd h.1 (by simp)
    · rintro rfl
      rw [show startsSeq (List.map segStr []) (List.map segStr p') = true from rfl] at h
      exact absurd h.2 (by simp)
    · simp only [disjointPaths, Bool.and_eq_true, Bool.not_eq_true']
      exact h
  · left
    exact he

theorem setGo_frame : ∀ (p q : Path) (c v : JsonValue), q ≠ [] →
    disjointPaths p q = true → getValueAtPath (setGo c p v) q = getValueAtPath c q
  | [], q, c, v, hq, hd => by rw [setGo]
  | [s], t :: q', c, v, _, hd => by
    rcases disjoint_head hd with hne | ⟨_, hp', _, _⟩
    · rw [setGo_single, getValueAtPath_cons, getValueAtPath_cons,
        indexJs_assign_ne hne]
    · exact absurd rfl hp'
  | s :: next :: rest, t :: q', c, v, _, hd => by
    rcases disjoint_head hd with hne | ⟨he, _, hq', hd'⟩
    · rw [setGo_cons2, getValueAtPath_cons, getValueAtPath_cons,
        indexJs_assign_ne hne]
    · rw [setGo_cons2, getValueAtPath_cons, getValueAtPath_cons,
        ← indexJs_segStr he (assign c s _), ← indexJs_segStr he c]
      rcases indexJs_assign_general c s
          (setGo (childFor c s next) (next :: rest) v) with hX | ⟨hEq, _⟩
      · rw [hX, setGo_frame (next :: rest) q' (childFor c s next) v hq' hd']
        cases hi : indexJs c s with
        | undef =>
          rw [childFor_undef hi, getValueAtPath_freshFor _ hq', getValueAtPath_undef]
        | null =>
          rw [childFor_null hi, getValueAtPath_freshFor _ hq', getValueAtPath_null hq']
        | bool b =>
          rw [childFor_of_ne (by rw [hi]; nofun) (by rw [hi]; nofun), hi,
            getValueAtPath_cloneJs _ hq']
        | num i =>
          rw [childFor_of_ne (by rw [hi]; nofun) (by rw [hi]; nofun), hi,
            getValueAtPath_cloneJs _ hq']
        | str u =>
          rw [childFor_of_ne (by rw [hi]; nofun) (by rw [hi]; nofun), hi,
            getValueAtPath_cloneJs _ hq']
        | arr l =>
          rw [childFor_of_ne (by rw [hi]; nofun) (by rw [hi]; nofun), hi,
            getValueAtPath_cloneJs _ hq']
        | obj m =>
          rw [childFor_of_ne (by rw [hi]; nofun) (by rw [hi]; nofun), hi,
            getValueAtPath_cloneJs _ hq']
      · rw [hEq]

/-! ## Claim theorems: TreeWriter and PathCodec -/

/-- **C7.** For every root value and every value `V`, `TreeWriter.set` with the
empty path returns `V` itself, replacing the full root. -/
theorem treeWriter_root_replace (root V : JsonValue) :
    setValueAtPath root [] V = V := rfl

/-- **C2.** For every root value, path `P`, and value `V` such that `P`
resolves in `root` (`TreeAccessor.get` does not return the absent sentinel),
reading back after a write returns the written value. -/
theorem treeWriter_roundtrip (root : JsonValue) (P : Path) (V : JsonValue)
    (h : getValueAtPath root P ≠ .undef) :
    getValueAtPath (setValueAtPath root P V) P = V := by
  match P with
  | [] => rw [setValueAtPath, getValueAtPath_nil]
  | s :: r =>
    rw [setValueAtPath]
    apply setGo_get _ _ _ (by simp)
    rw [getValueAtPath_cloneJs _ (by simp)]
    exact h

/-- Witness for C2 at a concrete input. -/
theorem treeWriter_roundtrip_witness :
    getValueAtPath (jobj [("a", .num 1), ("b", .num 2)]) [Seg.key "a"] ≠ .undef
    ∧ getValueAtPath
        (setValueAtPath (jobj [("a", .num 1), ("b", .num 2)]) [Seg.key "a"] (.num 9))
        [Seg.key "a"] = .num 9 :=
  ⟨by decide, treeWriter_roundtrip _ _ _ (by decide)⟩

/-- **C3.** For every root, path `P`, and value `V`, the root returned by
`TreeWriter.set` leaves every value reachable at a path disjoint from `P`
unchanged: reading any disjoint path `Q` in the new root gives the same value
as in the original root.  (The model is purely functional, so the original
root is never mutated by construction; this theorem expresses the observable
content of the non-aliasing invariant.) -/
theorem treeWriter_frame (root : JsonValue) (P Q : Path) (V : JsonValue)
    (h : disjointPaths P Q = true) :
    getValueAtPath (setValueAtPath root P V) Q = getValueAtPath root Q := by
  match P, Q with
  | [], Q =>
    rw [show disjointPaths [] Q = false from rfl] at h
    cases h
  | p1 :: pr, [] =>
    rw [show disjointPaths (p1 :: pr) [] = false from rfl] at h
    cases h
  | p1 :: pr, q1 :: qr =>
    rw [setValueAtPath, setGo_frame (p1 :: pr) (q1 :: qr) (cloneJs root) V
      (by simp) h, getValueAtPath_cloneJs _ (by simp)]

/-- Witness for C3 at a concrete input: writing under `"a"` leaves `"b"` and
an aliasing-aware disjoint array slot untouched. -/
theorem treeWriter_frame_witness :
    disjointPaths [Seg.key "a", Seg.idx 0] [Seg.key "b"] = true
    ∧ getValueAtPath
        (setValueAtPath (jobj [("a", jarr [.num 1]), ("b", .num 2)])
          [Seg.key "a", Seg.idx 0] (.num 7))
        [Seg.key "b"] = .num 2 :=
  ⟨by decide, treeWriter_frame _ _ _ _ (by decide)⟩

/-- `pathEquals` on two present paths is list equality. -/
theorem pathEquals_some_iff : ∀ (p q : Path),
    pathEquals (some p) (some q) = true ↔ p = q := by
  intro p
  induction p with
  | nil =>
    intro q
    cases q with
    | nil => simp [pathEquals]
    | cons t q' => simp [pathEquals]
  | cons s p' ih =>
    intro q
    cases q with
    | nil => simp [pathEquals]
    | cons t q' =>
      have hih := ih q'
      simp only [pathEquals] at hih ⊢
      simp only [List.length_cons, List.zip_cons_cons, List.all_cons,
        Bool.and_eq_true, beq_iff_eq] at hih ⊢
      constructor
      · rintro ⟨hl, hs, ha⟩
        have hpq : p' = q' := hih.1 ⟨by omega, ha⟩
        rw [hs, hpq]
      · intro h
        injection h with h1 h2
        subst h1
        subst h2
        exact ⟨rfl, rfl, (hih.2 rfl).2⟩

/-- **C8.** Path equality is an equivalence relation (reflexive, symmetric,
transitive), holds on present paths exactly when the two paths have the same
length and pairwise-equal segments (list equality), and distinguishes segment
kinds: a numeric segment never equals a string segment, and different lengths
are never equal. -/
theorem pathEquals_equivalence_characterization :
    (∀ a : Option Path, pathEquals a a = true)
    ∧ (∀ a b : Option Path, pathEquals a b = pathEquals b a)
    ∧ (∀ a b c : Option Path,
        pathEquals a b = true → pathEquals b c = true → pathEquals a c = true)
    ∧ (∀ p q : Path, pathEquals (some p) (some q) = true ↔ p = q)
    ∧ pathEquals (some [Seg.key "a"]) (some [Seg.key "a", Seg.idx 0]) = false
    ∧ pathEquals (some [Seg.idx 0]) (some [Seg.key "0"]) = false := by
  refine ⟨?_, ?_, ?_, pathEquals_some_iff, by decide, by decide⟩
  · intro a
    cases a with
    | none => rfl
    | some p => exact (pathEquals_some_iff p p).2 rfl
  · intro a b
    cases a with
    | none =>
      cases b with
      | none => rfl
      | some q => rfl
    | some p =>
      cases b with
      | none => rfl
      | some q =>
        by_cases h : p = q
        · subst h
          rfl
        · have h1 : pathEquals (some p) (some q) = false := by
            cases hb : pathEquals (some p) (some q) with
            | false => rfl
            | true => exact absurd ((pathEquals_some_iff p q).1 hb) h
          have h2 : pathEquals (some q) (some p) = false := by
            cases hb : pathEquals (some q) (some p) with
            | false => rfl
            | true => exact absurd ((pathEquals_some_iff q p).1 hb).symm h
          rw [h1, h2]
  · intro a b c h1 h2
    cases a with
    | none =>
      cases b with
      | none => exact h2
      | some q => simp [pathEquals] at h1
    | some p =>
      cases b with
      | none => simp [pathEquals] at h1
      | some q =>
        cases c with
        | none => simp [pathEquals] at h2
        | some r =>
          rw [pathEquals_some_iff] at h1 h2 ⊢
          exact h1.trans h2

/-- Witness for C8: the transitivity component applied at concrete paths. -/
theorem pathEquals_equivalence_characterization_witness :
    pathEquals (some [Seg.key "a", Seg.idx 3]) (some [Seg.key "a", Seg.idx 3]) = true :=
  pathEquals_equivalence_characterization.2.2.1
    (some [Seg.key "a", Seg.idx 3]) (some [Seg.key "a", Seg.idx 3])
    (some [Seg.key "a", Seg.idx 3]) (by decide) (by decide)

/-- **C4 counterexample.** With a `null` root and the numeric first segment
`0`, `setValueAtPath` does ∗not∗ establish an array: the spread `{ ...null }`
always makes the root an object, so the result is the object `{"0": 1}`, not
an array. -/
theorem treeWriter_null_root_numeric_counterexample :
    setValueAtPath .null [Seg.idx 0] (.num 1) = jobj [("0", .num 1)]
    ∧ ∀ l : JsonList, setValueAtPath .null [Seg.idx 0] (.num 1) ≠ .arr l := by
  refine ⟨by decide, ?_⟩
  intro l h
  rw [(by decide : setValueAtPath .null [Seg.idx 0] (.num 1)
      = jobj [("0", .num 1)])] at h
  exact JsonValue.noConfusion h

/-- **C4 amended.** For every non-empty path and value, `setValueAtPath`
tolerates a `null` root by treating it as an empty ∗object∗ regardless of the
first segment's kind (a numeric first segment stores under the decimal string
key of the root object rather than creating an array); the
numeric-segment-makes-array rule applies only to missing intermediate
containers, where the container for a missing child is an array exactly when
the following segment is numeric. -/
theorem treeWriter_null_root_becomes_object :
    (∀ (p : Path) (V : JsonValue), p ≠ [] →
        setValueAtPath .null p V = setValueAtPath (jobj []) p V)
    ∧ (∀ (s : String) (V : JsonValue),
        setValueAtPath .null [Seg.key s] V = jobj [(s, V)])
    ∧ (∀ (n : Nat) (V : JsonValue),
        setValueAtPath .null [Seg.idx n] V = jobj [(natStr n, V)])
    ∧ (∀ (s : String) (n : Nat) (V : JsonValue),
        setValueAtPath .null [Seg.key s, Seg.idx n] V
          = jobj [(s, .arr (arrSet .nil n V))]) := by
  refine ⟨?_, ?_, ?_, ?_⟩
  · intro p V hp
    match p with
    | s :: r => rfl
  · intro s V
    rfl
  · intro n V
    show setGo (cloneJs .null) [Seg.idx n] V = _
    rw [setGo_single]
    show JsonValue.obj (objInsert .nil (segStr (Seg.idx n)) V) = _
    rfl
  · intro s n V
    have h2 : assign (.arr .nil) (Seg.idx n) V = .arr (arrSet .nil n V) := by
      simp only [assign, canonNat?_segStr_idx]
    show setGo (cloneJs .null) [Seg.key s, Seg.idx n] V = _
    rw [setGo_cons2,
      show childFor (cloneJs .null) (Seg.key s) (Seg.idx n) = .arr .nil from rfl,
      setGo_single, h2]
    rfl

/-- Witness for the amended C4 at a concrete input. -/
theorem treeWriter_null_root_becomes_object_witness :
    setValueAtPath .null [Seg.key "a"] (.num 2)
      = setValueAtPath (jobj []) [Seg.key "a"] (.num 2) :=
  treeWriter_null_root_becomes_object.1 [Seg.key "a"] (.num 2) (by decide)

/-! ## Character-class and whitespace lemmas -/

theorem char_eq_iff_toNat {c c' : Char} : c = c' ↔ c.toNat = c'.toNat :=
  ⟨congrArg Char.toNat, charToNat_inj⟩

theorem char_ne_of_toNat_ne {c c' : Char} (h : c.toNat ≠ c'.toNat) : c ≠ c' :=
  fun he => h (congrArg Char.toNat he)

theorem isDigit_range {c : Char} (h : isDigit c = true) :
    48 ≤ c.toNat ∧ c.toNat ≤ 57 := by
  simpa [isDigit, Bool.and_eq_true, decide_eq_true_eq] using h

theorem isWs_iff {c : Char} :
    isWs c = true ↔ (c.toNat = 32 ∨ c.toNat = 10 ∨ c.toNat = 9 ∨ c.toNat = 13) := by
  simp only [isWs, Bool.or_eq_true, decide_eq_true_eq]
  rw [char_eq_iff_toNat, char_eq_iff_toNat, char_eq_iff_toNat, char_eq_iff_toNat]
  rw [show (' ').toNat = 32 from rfl, show ('\n').toNat = 10 from rfl,
    show ('\t').toNat = 9 from rfl, show ('\r').toNat = 13 from rfl]
  tauto

theorem isWs_false {c : Char}
    (h : ¬(c.toNat = 32 ∨ c.toNat = 10 ∨ c.toNat = 9 ∨ c.toNat = 13)) :
    isWs c = false := by
  rw [← Bool.not_eq_true, isWs_iff]
  exact h

theorem isDigit_not_ws {c : Char} (h : isDigit c = true) : isWs c = false := by
  have hr := isDigit_range h
  exact isWs_false (by omega)

theorem skipWs_cons_ws {c : Char} (h : isWs c = true) (t : List Char) :
    skipWs (c :: t) = skipWs t := by
  rw [skipWs, if_pos h]

theorem skipWs_cons_not {c : Char} (h : isWs c = false) (t : List Char) :
    skipWs (c :: t) = c :: t := by
  rw [skipWs, if_neg (by simp [h])]

theorem mem_ws_isWs (d : Nat) : ∀ c ∈ ws d, isWs c = true := by
  intro c hc
  rw [ws] at hc
  rw [List.eq_of_mem_replicate hc]
  decide

theorem skipWs_ws_prefix : ∀ (pre : List Char), (∀ c ∈ pre, isWs c = true) →
    ∀ x, skipWs (pre ++ x) = skipWs x := by
  intro pre
  induction pre with
  | nil => intro _ x; rfl
  | cons c t ih =>
    intro h x
    rw [List.cons_append, skipWs_cons_ws (h c (List.mem_cons_self c t))]
    exact ih (fun c' hc' => h c' (List.mem_cons_of_mem c hc')) x

theorem skipWs_indent (d : Nat) (x : List Char) : skipWs (ws d ++ x) = skipWs x :=
  skipWs_ws_prefix (ws d) (mem_ws_isWs d) x

theorem skipWs_newline_indent (d : Nat) (x : List Char) :
    skipWs ('\n' :: (ws d ++ x)) = skipWs x := by
  rw [skipWs_cons_ws (by decide), skipWs_indent]

theorem natDigits_head_digit (n : Nat) :
    ∃ c t, natDigits n = c :: t ∧ isDigit c = true := by
  cases hh : natDigits n with
  | nil => exact absurd hh (natDigits_ne_nil n)
  | cons c t =>
    exact ⟨c, t, rfl, natDigits_all_digits n c (hh ▸ List.mem_cons_self c t)⟩

theorem intChars_head (i : Int) :
    ∃ c t, intChars i = c :: t ∧ (c = '-' ∨ isDigit c = true) := by
  rw [intChars]
  by_cases h : i < 0
  · rw [if_pos h]
    exact ⟨'-', natDigits i.natAbs, rfl, Or.inl rfl⟩
  · rw [if_neg h]
    obtain ⟨c, t, he, hd⟩ := natDigits_head_digit i.natAbs
    exact ⟨c, t, he, Or.inr hd⟩

theorem emitV_head_ok (d : Nat) (v : JsonValue) :
    ∃ c t, emitV d v = c :: t ∧ isWs c = false ∧ c ≠ ']' ∧ c ≠ '}' := by
  cases v with
  | null =>
    refine ⟨'n', _, rfl, ?_, ?_, ?_⟩ <;> decide
  | undef =>
    refine ⟨'n', _, rfl, ?_, ?_, ?_⟩ <;> decide
  | bool b =>
    cases b with
    | true => refine ⟨'t', _, rfl, ?_, ?_, ?_⟩ <;> decide
    | false => refine ⟨'f', _, rfl, ?_, ?_, ?_⟩ <;> decide
  | num i =>
    obtain ⟨c, t, he, hd⟩ := intChars_head i
    refine ⟨c, t, he, ?_, ?_, ?_⟩
    · rcases hd with rfl | hd
      · decide
      · exact isDigit_not_ws hd
    · rcases hd with rfl | hd
      · decide
      · have := isDigit_range hd
        exact char_ne_of_toNat_ne (by rw [show (']').toNat = 93 from rfl]; omega)
    · rcases hd with rfl | hd
      · decide
      · have := isDigit_range hd
        exact char_ne_of_toNat_ne (by rw [show ('}').toNat = 125 from rfl]; omega)
  | str u => refine ⟨'"', _, rfl, ?_, ?_, ?_⟩ <;> decide
  | arr l =>
    cases hp : itemPieces d l with
    | nil =>
      refine ⟨'[', [']'], ?_, by decide, by decide, by decide⟩
      simp only [emitV, hp]
    | cons p ps =>
      refine ⟨'[', '\n' :: (joinPieces (ws (d + 1)) (p :: ps) ++ ('\n' :: (ws d ++ [']']))),
        ?_, by decide, by decide, by decide⟩
      simp only [emitV, hp]
  | obj m =>
    cases hp : memberPieces d m with
    | nil =>
      refine ⟨'{', ['}'], ?_, by decide, by decide, by decide⟩
      simp only [emitV, hp]
    | cons p ps =>
      refine ⟨'{', '\n' :: (joinPieces (ws (d + 1)) (p :: ps) ++ ('\n' :: (ws d ++ ['}']))),
        ?_, by decide, by decide, by decide⟩
      simp only [emitV, hp]

theorem emitV_ne_nil (d : Nat) (v : JsonValue) : emitV d v ≠ [] := by
  obtain ⟨c, t, he, -⟩ := emitV_head_ok d v
  rw [he]
  exact List.cons_ne_nil c t

theorem skipWs_emit (d : Nat) (v : JsonValue) (x : List Char) :
    skipWs (emitV d v ++ x) = emitV d v ++ x := by
  obtain ⟨c, t, he, hws, -, -⟩ := emitV_head_ok d v
  rw [he, List.cons_append, skipWs_cons_not hws]

/-! ## String escape/parse roundtrip -/

theorem hexVal?_hexDigitChar {n : Nat} (h : n < 16) :
    hexVal? (hexDigitChar n) = some n := by
  interval_cases n <;> decide

theorem psc_quote (X : List Char) : parseStringChars ('"' :: X) = some ([], X) := by
  rw [parseStringChars.eq_def]
  simp

theorem psc_esc (e ch : Char) (he : escDecode? e = some ch) (hne : e ≠ 'u')
    (X : List Char) :
    parseStringChars ('\\' :: e :: X)
      = Option.map (fun p => (ch :: p.1, p.2)) (parseStringChars X) := by
  rw [parseStringChars.eq_def]
  simp [hne, he]

theorem psc_u {h3 h4 : Char} {a b : Nat}
    (hh3 : hexVal? h3 = some a) (hh4 : hexVal? h4 = some b) (X : List Char) :
    parseStringChars ('\\' :: 'u' :: '0' :: '0' :: h3 :: h4 :: X)
      = Option.map (fun p => (Char.ofNat (a * 16 + b) :: p.1, p.2))
          (parseStringChars X) := by
  rw [parseStringChars.eq_def]
  simp [hh3, hh4, show hexVal? '0' = some 0 from by decide]

theorem psc_plain {c : Char} (h1 : c ≠ '"') (h2 : c ≠ '\\') (h3 : ¬ c.toNat < 32)
    (X : List Char) :
    parseStringChars (c :: X)
      = Option.map (fun p => (c :: p.1, p.2)) (parseStringChars X) := by
  rw [parseStringChars.eq_def]
  simp [h1, h2, h3]

theorem parseString_escStr : ∀ (cs rest : List Char),
    parseStringChars (escStr cs ++ ('"' :: rest)) = some (cs, rest) := by
  intro cs
  induction cs with
  | nil =>
    intro rest
    rw [show escStr [] = [] from rfl, List.nil_append]
    exact psc_quote rest
  | cons c t ih =>
    intro rest
    rw [escStr, List.append_assoc]
    by_cases h1 : c = '"'
    · subst h1
      rw [show escChar '"' = ['\\', '"'] from by decide]
      rw [show (['\\', '"'] : List Char) ++ (escStr t ++ ('"' :: rest))
          = '\\' :: '"' :: (escStr t ++ ('"' :: rest)) from rfl]
      rw [psc_esc '"' '"' (by decide) (by decide), ih]
      rfl
    · by_cases h2 : c = '\\'
      · subst h2
        rw [show escChar '\\' = ['\\', '\\'] from by decide]
        rw [show (['\\', '\\'] : List Char) ++ (escStr t ++ ('"' :: rest))
            = '\\' :: '\\' :: (escStr t ++ ('"' :: rest)) from rfl]
        rw [psc_esc '\\' '\\' (by decide) (by decide), ih]
        rfl
      · by_cases h3 : c = '\n'
        · subst h3
          rw [show escChar '\n' = ['\\', 'n'] from by decide]
          rw [show (['\\', 'n'] : List Char) ++ (escStr t ++ ('"' :: rest))
              = '\\' :: 'n' :: (escStr t ++ ('"' :: rest)) from rfl]
          rw [psc_esc 'n' '\n' (by decide) (by decide), ih]
          rfl
        · by_cases h4 : c = '\t'
          · subst h4
            rw [show escChar '\t' = ['\\', 't'] from by decide]
            rw [show (['\\', 't'] : List Char) ++ (escStr t ++ ('"' :: rest))
                = '\\' :: 't' :: (escStr t ++ ('"' :: rest)) from rfl]
            rw [psc_esc 't' '\t' (by decide) (by decide), ih]
            rfl
          · by_cases h5 : c = '\r'
            · subst h5
              rw [show escChar '\r' = ['\\', 'r'] from by decide]
              rw [show (['\\', 'r'] : List Char) ++ (escStr t ++ ('"' :: rest))
                  = '\\' :: 'r' :: (escStr t ++ ('"' :: rest)) from rfl]
              rw [psc_esc 'r' '\r' (by decide) (by decide), ih]
              rfl
            · by_cases h6 : c.toNat = 8
              · have hc : c = Char.ofNat 8 := charToNat_inj (by rw [h6]; rfl)
                subst hc
                rw [show escChar (Char.ofNat 8) = ['\\', 'b'] from by decide]
                rw [show (['\\', 'b'] : List Char) ++ (escStr t ++ ('"' :: rest))
                    = '\\' :: 'b' :: (escStr t ++ ('"' :: rest)) from rfl]
                rw [psc_esc 'b' (Char.ofNat 8) (by decide) (by decide), ih]
                rfl
              · by_cases h7 : c.toNat = 12
                · have hc : c = Char.ofNat 12 := charToNat_inj (by rw [h7]; rfl)
                  subst hc
                  rw [show escChar (Char.ofNat 12) = ['\\', 'f'] from by decide]
                  rw [show (['\\', 'f'] : List Char) ++ (escStr t ++ ('"' :: rest))
                      = '\\' :: 'f' :: (escStr t ++ ('"' :: rest)) from rfl]
                  rw [psc_esc 'f' (Char.ofNat 12) (by decide) (by decide), ih]
                  rfl
                · by_cases h8 : c.toNat < 32
                  · have hesc : escChar c
                        = ['\\', 'u', '0', '0', hexDigitChar (c.toNat / 16),
                           hexDigitChar (c.toNat % 16)] := by
                      simp only [escChar, if_neg h1, if_neg h2, if_neg h3, if_neg h4,
                        if_neg h5, if_neg h6, if_neg h7, if_pos h8]
                    rw [hesc]
                    rw [show (['\\', 'u', '0', '0', hexDigitChar (c.toNat / 16),
                          hexDigitChar (c.toNat % 16)] : List Char)
                          ++ (escStr t ++ ('"' :: rest))
                        = '\\' :: 'u' :: '0' :: '0' :: hexDigitChar (c.toNat / 16)
                          :: hexDigitChar (c.toNat % 16)
                          :: (escStr t ++ ('"' :: rest)) from rfl]
                    rw [psc_u (hexVal?_hexDigitChar (by omega))
                      (hexVal?_hexDigitChar (by omega)), ih]
                    have harith : c.toNat / 16 * 16 + c.toNat % 16 = c.toNat := by
                      omega
                    rw [harith, Char.ofNat_toNat]
                    rfl
                  · have hesc : escChar c = [c] := by
                      simp only [escChar, if_neg h1, if_neg h2, if_neg h3, if_neg h4,
                        if_neg h5, if_neg h6, if_neg h7, if_neg h8]
                    rw [hesc]
                    rw [show ([c] : List Char) ++ (escStr t ++ ('"' :: rest))
                        = c :: (escStr t ++ ('"' :: rest)) from rfl]
                    rw [psc_plain h1 h2 h8, ih]
                    rfl

/-! ## Number parse roundtrip -/

theorem takeDigits_spec : ∀ (ds rest : List Char), (∀ c ∈ ds, isDigit c = true) →
    headSafe rest = true → takeDigits (ds ++ rest) = (ds, rest) := by
  intro ds
  induction ds with
  | nil =>
    intro rest _ hs
    match rest with
    | [] => rfl
    | c :: t =>
      have hnd : isDigit c = false := by simpa [headSafe] using hs
      rw [List.nil_append, takeDigits.eq_def]
      simp [hnd]
  | cons c t ih =>
    intro rest hd hs
    have hc : isDigit c = true := hd c (List.mem_cons_self c t)
    rw [List.cons_append, takeDigits.eq_def]
    simp only [hc, if_true]
    rw [ih rest (fun x hx => hd x (List.mem_cons_of_mem c hx)) hs]

theorem parsePosNum_natDigits (n : Nat) (rest : List Char)
    (hs : headSafe rest = true) :
    parsePosNum (natDigits n ++ rest) = some (n, rest) := by
  by_cases h0 : n = 0
  · subst h0
    rw [show natDigits 0 = ['0'] from by decide]
    rw [show (['0'] : List Char) ++ rest = '0' :: rest from rfl]
    rw [parsePosNum.eq_def]
    simp
  · obtain ⟨c, t, he, hd⟩ := natDigits_head_digit n
    have hc0 : c ≠ '0' := natDigits_head (by omega) he
    have htd : takeDigits ((c :: t) ++ rest) = (c :: t, rest) :=
      takeDigits_spec (c :: t) rest
        (fun x hx => natDigits_all_digits n x (he ▸ hx)) hs
    rw [he, List.cons_append, parsePosNum.eq_def]
    simp only [if_neg hc0]
    rw [List.cons_append] at htd
    rw [htd]
    simp only []
    have hval := digitsToNat_natDigits n 0
    rw [he] at hval
    simp at hval
    simp [hval]

theorem parseNum_intChars (i : Int) (rest : List Char) (hs : headSafe rest = true) :
    parseNum (intChars i ++ rest) = some (i, rest) := by
  rw [intChars]
  by_cases h : i < 0
  · rw [if_pos h, List.cons_append, parseNum.eq_def]
    simp only [if_pos rfl]
    rw [parsePosNum_natDigits i.natAbs rest hs]
    have hv : -((i.natAbs : Nat) : Int) = i := by omega
    simp only [Option.map_some']
    rw [hv]
    simp only [if_true]
  · rw [if_neg h]
    obtain ⟨c, t, he, hd⟩ := natDigits_head_digit i.natAbs
    have hcm : c ≠ '-' := by
      have := isDigit_range hd
      exact char_ne_of_toNat_ne (by rw [show ('-').toNat = 45 from rfl]; omega)
    rw [he, List.cons_append, parseNum.eq_def]
    simp only [if_neg hcm]
    rw [← List.cons_append, ← he, parsePosNum_natDigits i.natAbs rest hs]
    have hv : ((i.natAbs : Nat) : Int) = i := by omega
    simp only [Option.map_some']
    rw [hv]

theorem num_head_facts {c : Char} (h : c = '-' ∨ isDigit c = true) :
    c ≠ 'n' ∧ c ≠ 't' ∧ c ≠ 'f' ∧ c ≠ '"' ∧ c ≠ '[' ∧ c ≠ '{'
      ∧ startsNum c = true := by
  rcases h with rfl | hd
  · exact ⟨by decide, by decide, by decide, by decide, by decide, by decide,
      by decide⟩
  · have hr := isDigit_range hd
    refine ⟨?_, ?_, ?_, ?_, ?_, ?_, ?_⟩
    · exact char_ne_of_toNat_ne (by rw [show ('n').toNat = 110 from rfl]; omega)
    · exact char_ne_of_toNat_ne (by rw [show ('t').toNat = 116 from rfl]; omega)
    · exact char_ne_of_toNat_ne (by rw [show ('f').toNat = 102 from rfl]; omega)
    · exact char_ne_of_toNat_ne (by rw [show ('"').toNat = 34 from rfl]; omega)
    · exact char_ne_of_toNat_ne (by rw [show ('[').toNat = 91 from rfl]; omega)
    · exact char_ne_of_toNat_ne (by rw [show ('{').toNat = 123 from rfl]; omega)
    · simp [startsNum, hd]

/-! ## Emitted array and object bodies -/

theorem wfV_ne_undef {v : JsonValue} (h : wfV v = true) : v ≠ .undef := by
  intro he
  subst he
  exact absurd h (by decide)

theorem emitV_arr_cons (d : Nat) (v : JsonValue) (t : JsonList) :
    emitV d (.arr (.cons v t))
      = '[' :: '\n' :: (joinPieces (ws (d + 1)) (itemPieces d (.cons v t))
          ++ ('\n' :: (ws d ++ [']']))) := by
  rw [emitV, show itemPieces d (.cons v t) = emitV (d + 1) v :: itemPieces d t from rfl]

theorem memberPieces_cons {v : JsonValue} (d : Nat) (k : String) (m : JsonMembers)
    (hv : v ≠ .undef) :
    memberPieces d (.cons k v m)
      = (quoteStr k ++ (':' :: ' ' :: emitV (d + 1) v)) :: memberPieces d m := by
  rw [memberPieces, if_neg hv]

theorem emitV_obj_cons {v : JsonValue} (d : Nat) (k : String) (m : JsonMembers)
    (hv : v ≠ .undef) :
    emitV d (.obj (.cons k v m))
      = '{' :: '\n' :: (joinPieces (ws (d + 1)) (memberPieces d (.cons k v m))
          ++ ('\n' :: (ws d ++ ['}']))) := by
  rw [emitV, memberPieces_cons d k m hv]

theorem joinPieces_cons_ne (ind p : List Char) :
    ∀ ps : List (List Char), ps ≠ [] →
      joinPieces ind (p :: ps) = ind ++ p ++ (',' :: '\n' :: joinPieces ind ps) := by
  intro ps h
  cases ps with
  | nil => exact absurd rfl h
  | cons q qs => rfl

theorem emit_arr_body (d : Nat) (rest : List Char) :
    ∀ (l : JsonList), l ≠ .nil →
      joinPieces (ws (d + 1)) (itemPieces d l) ++ ('\n' :: (ws d ++ (']' :: rest)))
        = ws (d + 1) ++ itemsBody d rest l
  | .nil, h => absurd rfl h
  | .cons v .nil, _ => by
    rw [show itemPieces d (.cons v .nil) = [emitV (d + 1) v] from rfl,
      show joinPieces (ws (d + 1)) [emitV (d + 1) v]
        = ws (d + 1) ++ emitV (d + 1) v from rfl,
      show itemsBody d rest (.cons v .nil)
        = emitV (d + 1) v ++ ('\n' :: (ws d ++ (']' :: rest))) from rfl,
      List.append_assoc]
  | .cons v (.cons v2 t), _ => by
    have ih := emit_arr_body d rest (.cons v2 t) (fun h => JsonList.noConfusion h)
    rw [show itemPieces d (.cons v (.cons v2 t))
        = emitV (d + 1) v :: itemPieces d (.cons v2 t) from rfl]
    rw [show itemsBody d rest (.cons v (.cons v2 t))
        = emitV (d + 1) v ++ (',' :: '\n'
            :: (ws (d + 1) ++ itemsBody d rest (.cons v2 t))) from by
      rw [itemsBody.eq_def]]
    rw [← ih]
    rw [show itemPieces d (.cons v2 t) = emitV (d + 1) v2 :: itemPieces d t from rfl]
    rw [show joinPieces (ws (d + 1))
          (emitV (d + 1) v :: emitV (d + 1) v2 :: itemPieces d t)
        = ws (d + 1) ++ emitV (d + 1) v
            ++ (',' :: '\n' :: joinPieces (ws (d + 1))
                  (emitV (d + 1) v2 :: itemPieces d t)) from rfl]
    simp [List.append_assoc]

theorem emit_obj_body (d : Nat) (rest : List Char) :
    ∀ (m : JsonMembers), m ≠ .nil → wfM m = true →
      joinPieces (ws (d + 1)) (memberPieces d m) ++ ('\n' :: (ws d ++ ('}' :: rest)))
        = ws (d + 1) ++ membersBody d rest m
  | .nil, h, _ => absurd rfl h
  | .cons k v .nil, _, hwf => by
    have hv : v ≠ .undef := by
      intro he
      subst he
      have hred : wfM (.cons k JsonValue.undef .nil) = false := rfl
      rw [hred] at hwf
      cases hwf
    rw [memberPieces_cons d k .nil hv,
      show memberPieces d (.nil : JsonMembers) = [] from rfl,
      show joinPieces (ws (d + 1)) [quoteStr k ++ (':' :: ' ' :: emitV (d + 1) v)]
        = ws (d + 1) ++ (quoteStr k ++ (':' :: ' ' :: emitV (d + 1) v)) from rfl,
      show membersBody d rest (.cons k v .nil)
        = quoteStr k ++ (':' :: ' '
            :: (emitV (d + 1) v ++ ('\n' :: (ws d ++ ('}' :: rest))))) from rfl]
    simp [List.append_assoc]
  | .cons k v (.cons k2 v2 t), _, hwf => by
    have hwv : wfV v = true ∧ wfM (.cons k2 v2 t) = true := by
      have hred : wfM (.cons k v (.cons k2 v2 t))
          = (wfV v && wfM (.cons k2 v2 t)) := rfl
      rw [hred, Bool.and_eq_true] at hwf
      exact hwf
    have hv : v ≠ .undef := wfV_ne_undef hwv.1
    have hv2 : v2 ≠ .undef := by
      have h2 := hwv.2
      have hred : wfM (.cons k2 v2 t) = (wfV v2 && wfM t) := rfl
      rw [hred, Bool.and_eq_true] at h2
      exact wfV_ne_undef h2.1
    have ih := emit_obj_body d rest (.cons k2 v2 t)
      (fun h => JsonMembers.noConfusion h) hwv.2
    rw [memberPieces_cons d k (.cons k2 v2 t) hv]
    rw [joinPieces_cons_ne _ _ _ (by
      rw [memberPieces_cons d k2 t hv2]
      exact List.cons_ne_nil _ _)]
    rw [show membersBody d rest (.cons k v (.cons k2 v2 t))
        = quoteStr k ++ (':' :: ' ' :: (emitV (d + 1) v
            ++ (',' :: '\n' :: (ws (d + 1)
                ++ membersBody d rest (.cons k2 v2 t))))) from by
      rw [membersBody.eq_def]]
    rw [← ih]
    simp [List.append_assoc]

theorem emit_arr_stream (d : Nat) (rest : List Char) (v : JsonValue) (t : JsonList) :
    emitV d (.arr (.cons v t)) ++ rest
      = '[' :: '\n' :: (ws (d + 1) ++ itemsBody d rest (.cons v t)) := by
  rw [emitV_arr_cons]
  rw [show ('[' :: '\n' :: (joinPieces (ws (d + 1)) (itemPieces d (.cons v t))
        ++ ('\n' :: (ws d ++ [']'])))) ++ rest
      = '[' :: '\n' :: (joinPieces (ws (d + 1)) (itemPieces d (.cons v t))
        ++ ('\n' :: (ws d ++ (']' :: rest)))) from by simp [List.append_assoc]]
  rw [emit_arr_body d rest (.cons v t) (fun h => JsonList.noConfusion h)]

theorem emit_obj_stream {v : JsonValue} (d : Nat) (rest : List Char) (k : String)
    (m : JsonMembers) (hwf : wfM (.cons k v m) = true) :
    emitV d (.obj (.cons k v m)) ++ rest
      = '{' :: '\n' :: (ws (d + 1) ++ membersBody d rest (.cons k v m)) := by
  have hv : v ≠ .undef := by
    have hred : wfM (.cons k v m) = (wfV v && wfM m) := rfl
    rw [hred, Bool.and_eq_true] at hwf
    exact wfV_ne_undef hwf.1
  rw [emitV_obj_cons d k m hv]
  rw [show ('{' :: '\n' :: (joinPieces (ws (d + 1)) (memberPieces d (.cons k v m))
        ++ ('\n' :: (ws d ++ ['}'])))) ++ rest
      = '{' :: '\n' :: (joinPieces (ws (d + 1)) (memberPieces d (.cons k v m))
        ++ ('\n' :: (ws d ++ ('}' :: rest)))) from by simp [List.append_assoc]]
  rw [emit_obj_body d rest (.cons k v m) (fun h => JsonMembers.noConfusion h) hwf]

/-! ## `buildObj` is the identity on duplicate-free member lists -/

theorem memAppend_nil : ∀ (a : JsonMembers), memAppend a .nil = a
  | .nil => rfl
  | .cons k v t => by rw [memAppend, memAppend_nil t]

theorem memAppend_assoc : ∀ (a b c : JsonMembers),
    memAppend (memAppend a b) c = memAppend a (memAppend b c)
  | .nil, _, _ => rfl
  | .cons k v t, b, c => by
    rw [memAppend, memAppend, memAppend, memAppend_assoc t b c]

theorem hasKey_memAppend : ∀ (a b : JsonMembers) (s : String),
    hasKey (memAppend a b) s = (hasKey a s || hasKey b s)
  | .nil, b, s => by rw [memAppend, hasKey, Bool.false_or]
  | .cons k v t, b, s => by
    rw [memAppend, hasKey, hasKey, hasKey_memAppend t b s, Bool.or_assoc]

theorem objInsert_absent : ∀ (m : JsonMembers) {k : String}, hasKey m k = false →
    ∀ (v : JsonValue), objInsert m k v = memAppend m (.cons k v .nil)
  | .nil, k, _, v => rfl
  | .cons k0 v0 t, k, h, v => by
    rw [hasKey, Bool.or_eq_false_iff] at h
    have hk : k0 ≠ k := by
      intro he
      subst he
      simp at h
    rw [objInsert, if_neg hk, memAppend, objInsert_absent t h.2 v]

theorem buildObjAux_append : ∀ (m acc : JsonMembers), noDupKeys m = true →
    (∀ k, hasKey m k = true → hasKey acc k = false) →
    buildObjAux acc m = memAppend acc m
  | .nil, acc, _, _ => (memAppend_nil acc).symm
  | .cons k v t, acc, hnd, hdisj => by
    have hnd' : noDupKeys t = true ∧ hasKey t k = false := by
      rw [noDupKeys, Bool.and_eq_true] at hnd
      exact ⟨hnd.2, by simpa using hnd.1⟩
    have hacc : hasKey acc k = false := hdisj k (by rw [hasKey]; simp)
    rw [buildObjAux, objInsert_absent acc hacc v]
    rw [buildObjAux_append t (memAppend acc (.cons k v .nil)) hnd'.1 ?_]
    · rw [memAppend_assoc]
      rfl
    · intro k' hk'
      rw [hasKey_memAppend, Bool.or_eq_false_iff]
      constructor
      · exact hdisj k' (by rw [hasKey, hk']; simp)
      · have : k ≠ k' := by
          intro he
          subst he
          rw [hk'] at hnd'
          exact absurd hnd'.2 (by simp)
        rw [hasKey, hasKey]
        simp [this]

theorem buildObj_id {m : JsonMembers} (h : noDupKeys m = true) : buildObj m = m := by
  rw [buildObj, buildObjAux_append m .nil h (fun k _ => rfl)]
  rfl

/-! ## `parseValue` unfolding helpers -/

theorem pv_null (f : Nat) (r : List Char) :
    parseValue (f + 1) ('n' :: 'u' :: 'l' :: 'l' :: r) = some (.null, r) := by
  rw [parseValue.eq_def]
  simp

theorem pv_true (f : Nat) (r : List Char) :
    parseValue (f + 1) ('t' :: 'r' :: 'u' :: 'e' :: r) = some (.bool true, r) := by
  rw [parseValue.eq_def]
  simp

theorem pv_false (f : Nat) (r : List Char) :
    parseValue (f + 1) ('f' :: 'a' :: 'l' :: 's' :: 'e' :: r)
      = some (.bool false, r) := by
  rw [parseValue.eq_def]
  simp

theorem pv_str (f : Nat) (r : List Char) :
    parseValue (f + 1) ('"' :: r)
      = (parseStringChars r).map (fun p => (.str ⟨p.1⟩, p.2)) := by
  rw [parseValue.eq_def]
  simp

theorem pv_num {c : Char} (h : c = '-' ∨ isDigit c = true) (f : Nat) (r : List Char) :
    parseValue (f + 1) (c :: r)
      = (parseNum (c :: r)).map (fun p => (.num p.1, p.2)) := by
  obtain ⟨hn, ht, hf, hq, hb, hbr, hs⟩ := num_head_facts h
  rw [parseValue.eq_def]
  simp [hn, ht, hf, hq, hb, hbr, hs]

theorem pv_arr_empty (f : Nat) (r : List Char) :
    parseValue (f + 1) ('[' :: ']' :: r) = some (.arr .nil, r) := by
  rw [parseValue.eq_def]
  simp [skipWs_cons_not (show isWs ']' = false from by decide) r]

theorem pv_obj_empty (f : Nat) (r : List Char) :
    parseValue (f + 1) ('{' :: '}' :: r) = some (.obj .nil, r) := by
  rw [parseValue.eq_def]
  simp [skipWs_cons_not (show isWs '}' = false from by decide) r]

theorem pv_arr_items {r : List Char} {c2 : Char} {r1 : List Char}
    (hsw : skipWs r = c2 :: r1) (hne : c2 ≠ ']') (f : Nat) :
    parseValue (f + 1) ('[' :: r)
      = (parseItems f (c2 :: r1)).map (fun p => (.arr p.1, p.2)) := by
  rw [parseValue.eq_def]
  simp [hsw, hne]

theorem pv_obj_members {r : List Char} {c2 : Char} {r1 : List Char}
    (hsw : skipWs r = c2 :: r1) (hne : c2 ≠ '}') (f : Nat) :
    parseValue (f + 1) ('{' :: r)
      = (parseMembersRaw f (c2 :: r1)).map
          (fun p => (.obj (buildObj p.1), p.2)) := by
  rw [parseValue.eq_def]
  simp [hsw, hne]

theorem itemsBody_cons_cons (d : Nat) (rest : List Char) (v v2 : JsonValue)
    (t2 : JsonList) :
    itemsBody d rest (.cons v (.cons v2 t2))
      = emitV (d + 1) v ++ (',' :: '\n'
          :: (ws (d + 1) ++ itemsBody d rest (.cons v2 t2))) := by
  rw [itemsBody.eq_def]

theorem membersBody_cons_cons (d : Nat) (rest : List Char) (k k2 : String)
    (v v2 : JsonValue) (t2 : JsonMembers) :
    membersBody d rest (.cons k v (.cons k2 v2 t2))
      = quoteStr k ++ (':' :: ' ' :: (emitV (d + 1) v
          ++ (',' :: '\n' :: (ws (d + 1)
              ++ membersBody d rest (.cons k2 v2 t2))))) := by
  rw [membersBody.eq_def]

theorem skipWs_itemsBody (d : Nat) (rest : List Char) (v : JsonValue) :
    ∀ t : JsonList, skipWs (itemsBody d rest (.cons v t))
      = itemsBody d rest (.cons v t) := by
  intro t
  cases t with
  | nil =>
    rw [show itemsBody d rest (.cons v .nil)
        = emitV (d + 1) v ++ ('\n' :: (ws d ++ (']' :: rest))) from rfl]
    exact skipWs_emit (d + 1) v _
  | cons v2 t2 =>
    rw [itemsBody_cons_cons]
    exact skipWs_emit (d + 1) v _

theorem quoteStr_stream (k : String) (X : List Char) :
    quoteStr k ++ X = '"' :: (escStr k.data ++ ('"' :: X)) := by
  rw [quoteStr]
  simp [List.append_assoc]

theorem membersBody_head (d : Nat) (rest : List Char) (k : String) (v : JsonValue) :
    ∀ m : JsonMembers, ∃ r1, membersBody d rest (.cons k v m) = '"' :: r1 := by
  intro m
  cases m with
  | nil =>
    refine ⟨escStr k.data ++ ('"' :: (':' :: ' ' :: (emitV (d + 1) v
      ++ ('\n' :: (ws d ++ ('}' :: rest)))))), ?_⟩
    rw [show membersBody d rest (.cons k v .nil)
        = quoteStr k ++ (':' :: ' ' :: (emitV (d + 1) v
            ++ ('\n' :: (ws d ++ ('}' :: rest))))) from rfl]
    exact quoteStr_stream k _
  | cons k2 v2 t2 =>
    refine ⟨escStr k.data ++ ('"' :: (':' :: ' ' :: (emitV (d + 1) v
      ++ (',' :: '\n' :: (ws (d + 1) ++ membersBody d rest (.cons k2 v2 t2)))))), ?_⟩
    rw [membersBody_cons_cons]
    exact quoteStr_stream k _

theorem skipWs_membersBody (d : Nat) (rest : List Char) (k : String)
    (v : JsonValue) (m : JsonMembers) :
    skipWs (membersBody d rest (.cons k v m)) = membersBody d rest (.cons k v m) := by
  obtain ⟨r1, he⟩ := membersBody_head d rest k v m
  rw [he, skipWs_cons_not (by decide)]

/-! ## The serialize-then-parse roundtrip -/

mutual

theorem parse_emit_V : ∀ (v : JsonValue) (d : Nat) (rest : List Char) (fuel : Nat),
    wfV v = true → nfV v ≤ fuel → headSafe rest = true →
    parseValue fuel (emitV d v ++ rest) = some (v, rest)
  | .null, d, rest, fuel, _, hn, _ => by
    obtain ⟨f, rfl⟩ : ∃ f, fuel = f + 1 :=
      ⟨fuel - 1, by have h1 : nfV .null = 1 := rfl; omega⟩
    rw [show emitV d .null ++ rest = 'n' :: 'u' :: 'l' :: 'l' :: rest from rfl]
    exact pv_null f rest
  | .undef, _, _, _, hwf, _, _ => absurd hwf (by decide)
  | .bool true, d, rest, fuel, _, hn, _ => by
    obtain ⟨f, rfl⟩ : ∃ f, fuel = f + 1 :=
      ⟨fuel - 1, by have h1 : nfV (.bool true) = 1 := rfl; omega⟩
    rw [show emitV d (.bool true) ++ rest = 't' :: 'r' :: 'u' :: 'e' :: rest from rfl]
    exact pv_true f rest
  | .bool false, d, rest, fuel, _, hn, _ => by
    obtain ⟨f, rfl⟩ : ∃ f, fuel = f + 1 :=
      ⟨fuel - 1, by have h1 : nfV (.bool false) = 1 := rfl; omega⟩
    rw [show emitV d (.bool false) ++ rest
        = 'f' :: 'a' :: 'l' :: 's' :: 'e' :: rest from rfl]
    exact pv_false f rest
  | .num i, d, rest, fuel, _, hn, hs => by
    obtain ⟨f, rfl⟩ : ∃ f, fuel = f + 1 :=
      ⟨fuel - 1, by have h1 : nfV (.num i) = 1 := rfl; omega⟩
    obtain ⟨c, t, he, hd⟩ := intChars_head i
    rw [show emitV d (.num i) = intChars i from rfl, he, List.cons_append]
    rw [pv_num hd f]
    rw [← List.cons_append, ← he, parseNum_intChars i rest hs]
    rfl
  | .str u, d, rest, fuel, _, hn, _ => by
    obtain ⟨f, rfl⟩ : ∃ f, fuel = f + 1 :=
      ⟨fuel - 1, by have h1 : nfV (.str u) = 1 := rfl; omega⟩
    rw [show emitV d (.str u) = quoteStr u from rfl, quoteStr_stream]
    rw [pv_str f, parseString_escStr u.data rest]
    rfl
  | .arr .nil, d, rest, fuel, _, hn, _ => by
    obtain ⟨f, rfl⟩ : ∃ f, fuel = f + 1 :=
      ⟨fuel - 1, by have h1 : nfV (.arr .nil) = 2 := rfl; omega⟩
    rw [show emitV d (.arr .nil) ++ rest = '[' :: ']' :: rest from rfl]
    exact pv_arr_empty f rest
  | .arr (.cons v t), d, rest, fuel, hwf, hn, hs => by
    obtain ⟨f, rfl⟩ : ∃ f, fuel = f + 1 :=
      ⟨fuel - 1, by
        have h1 : nfV (.arr (.cons v t)) = nfL (.cons v t) + 1 := rfl
        omega⟩
    have hf : nfL (.cons v t) ≤ f := by
      have h1 : nfV (.arr (.cons v t)) = nfL (.cons v t) + 1 := rfl
      omega
    have hwl : wfL (.cons v t) = true := by
      have h1 : wfV (.arr (.cons v t)) = wfL (.cons v t) := rfl
      rwa [h1] at hwf
    rw [emit_arr_stream d rest v t]
    obtain ⟨c2, t2, he2, hws2, hrb, _⟩ := emitV_head_ok (d + 1) v
    have hbody : ∃ r1, itemsBody d rest (.cons v t) = c2 :: r1 := by
      cases t with
      | nil =>
        refine ⟨t2 ++ ('\n' :: (ws d ++ (']' :: rest))), ?_⟩
        rw [show itemsBody d rest (.cons v .nil)
            = emitV (d + 1) v ++ ('\n' :: (ws d ++ (']' :: rest))) from rfl, he2,
          List.cons_append]
      | cons v2 t2' =>
        refine ⟨t2 ++ (',' :: '\n'
          :: (ws (d + 1) ++ itemsBody d rest (.cons v2 t2'))), ?_⟩
        rw [itemsBody_cons_cons, he2, List.cons_append]
    obtain ⟨r1, hb⟩ := hbody
    have hsw : skipWs ('\n' :: (ws (d + 1) ++ itemsBody d rest (.cons v t)))
        = c2 :: r1 := by
      rw [skipWs_newline_indent, hb, skipWs_cons_not hws2]
    rw [pv_arr_items hsw hrb f, ← hb,
      parse_emit_L (.cons v t) d rest f (fun h => JsonList.noConfusion h) hwl hf]
    rfl
  | .obj .nil, d, rest, fuel, _, hn, _ => by
    obtain ⟨f, rfl⟩ : ∃ f, fuel = f + 1 :=
      ⟨fuel - 1, by have h1 : nfV (.obj .nil) = 2 := rfl; omega⟩
    rw [show emitV d (.obj .nil) ++ rest = '{' :: '}' :: rest from rfl]
    exact pv_obj_empty f rest
  | .obj (.cons k v m), d, rest, fuel, hwf, hn, hs => by
    have hsplit : noDupKeys (.cons k v m) = true ∧ wfM (.cons k v m) = true := by
      have h1 : wfV (.obj (.cons k v m))
          = (noDupKeys (.cons k v m) && wfM (.cons k v m)) := rfl
      rw [h1, Bool.and_eq_true] at hwf
      exact hwf
    obtain ⟨f, rfl⟩ : ∃ f, fuel = f + 1 :=
      ⟨fuel - 1, by
        have h1 : nfV (.obj (.cons k v m)) = nfM (.cons k v m) + 1 := rfl
        omega⟩
    have hfm : nfM (.cons k v m) ≤ f := by
      have h1 : nfV (.obj (.cons k v m)) = nfM (.cons k v m) + 1 := rfl
      omega
    rw [emit_obj_stream d rest k m hsplit.2]
    obtain ⟨r1, hb⟩ := membersBody_head d rest k v m
    have hsw : skipWs ('\n' :: (ws (d + 1) ++ membersBody d rest (.cons k v m)))
        = '"' :: r1 := by
      rw [skipWs_newline_indent, hb, skipWs_cons_not (by decide)]
    rw [pv_obj_members hsw (by decide) f, ← hb,
      parse_emit_M (.cons k v m) d rest f (fun h => JsonMembers.noConfusion h)
        hsplit.2 hfm]
    simp [buildObj_id hsplit.1]

theorem parse_emit_L : ∀ (l : JsonList) (d : Nat) (rest : List Char) (fuel : Nat),
    l ≠ .nil → wfL l = true → nfL l ≤ fuel →
    parseItems fuel (itemsBody d rest l) = some (l, rest)
  | .nil, _, _, _, h, _, _ => absurd rfl h
  | .cons v .nil, d, rest, fuel, _, hwl, hn => by
    have hmax := Nat.le_max_left (nfV v) (nfL .nil)
    obtain ⟨f, rfl⟩ : ∃ f, fuel = f + 1 :=
      ⟨fuel - 1, by
        have h1 : nfL (.cons v .nil) = max (nfV v) (nfL .nil) + 1 := rfl
        omega⟩
    have hfv : nfV v ≤ f := by
      have h1 : nfL (.cons v .nil) = max (nfV v) (nfL .nil) + 1 := rfl
      omega
    have hwv : wfV v = true := by
      have h1 : wfL (.cons v .nil) = (wfV v && wfL .nil) := rfl
      rw [h1, Bool.and_eq_true] at hwl
      exact hwl.1
    have hpv := parse_emit_V v (d + 1) ('\n' :: (ws d ++ (']' :: rest))) f hwv hfv
      rfl
    have hsw : skipWs ('\n' :: (ws d ++ (']' :: rest))) = ']' :: rest := by
      rw [skipWs_newline_indent, skipWs_cons_not (by decide)]
    rw [show itemsBody d rest (.cons v .nil)
        = emitV (d + 1) v ++ ('\n' :: (ws d ++ (']' :: rest))) from rfl]
    rw [parseItems.eq_def]
    simp [hpv, hsw]
  | .cons v (.cons v2 t2), d, rest, fuel, _, hwl, hn => by
    have hmaxl := Nat.le_max_left (nfV v) (nfL (.cons v2 t2))
    have hmaxr := Nat.le_max_right (nfV v) (nfL (.cons v2 t2))
    obtain ⟨f, rfl⟩ : ∃ f, fuel = f + 1 :=
      ⟨fuel - 1, by
        have h1 : nfL (.cons v (.cons v2 t2))
            = max (nfV v) (nfL (.cons v2 t2)) + 1 := rfl
        omega⟩
    have hfv : nfV v ≤ f := by
      have h1 : nfL (.cons v (.cons v2 t2))
          = max (nfV v) (nfL (.cons v2 t2)) + 1 := rfl
      omega
    have hft : nfL (.cons v2 t2) ≤ f := by
      have h1 : nfL (.cons v (.cons v2 t2))
          = max (nfV v) (nfL (.cons v2 t2)) + 1 := rfl
      omega
    have hwsplit : wfV v = true ∧ wfL (.cons v2 t2) = true := by
      have h1 : wfL (.cons v (.cons v2 t2)) = (wfV v && wfL (.cons v2 t2)) := rfl
      rw [h1, Bool.and_eq_true] at hwl
      exact hwl
    have hpv := parse_emit_V v (d + 1)
      (',' :: '\n' :: (ws (d + 1) ++ itemsBody d rest (.cons v2 t2))) f hwsplit.1
      hfv rfl
    have hsw1 : skipWs (',' :: '\n'
          :: (ws (d + 1) ++ itemsBody d rest (.cons v2 t2)))
        = ',' :: '\n' :: (ws (d + 1) ++ itemsBody d rest (.cons v2 t2)) :=
      skipWs_cons_not (by decide) _
    have hsw2 : skipWs ('\n' :: (ws (d + 1) ++ itemsBody d rest (.cons v2 t2)))
        = itemsBody d rest (.cons v2 t2) := by
      rw [skipWs_newline_indent, skipWs_itemsBody]
    have hrec := parse_emit_L (.cons v2 t2) d rest f
      (fun h => JsonList.noConfusion h) hwsplit.2 hft
    rw [itemsBody_cons_cons]
    rw [parseItems.eq_def]
    simp [hpv, hsw1, hsw2, hrec]

theorem parse_emit_M : ∀ (m : JsonMembers) (d : Nat) (rest : List Char) (fuel : Nat),
    m ≠ .nil → wfM m = true → nfM m ≤ fuel →
    parseMembersRaw fuel (membersBody d rest m) = some (m, rest)
  | .nil, _, _, _, h, _, _ => absurd rfl h
  | .cons k v .nil, d, rest, fuel, _, hwm, hn => by
    have hmax := Nat.le_max_left (nfV v) (nfM .nil)
    obtain ⟨f, rfl⟩ : ∃ f, fuel = f + 1 :=
      ⟨fuel - 1, by
        have h1 : nfM (.cons k v .nil) = max (nfV v) (nfM .nil) + 1 := rfl
        omega⟩
    have hfv : nfV v ≤ f := by
      have h1 : nfM (.cons k v .nil) = max (nfV v) (nfM .nil) + 1 := rfl
      omega
    have hwv : wfV v = true := by
      have h1 : wfM (.cons k v .nil) = (wfV v && wfM .nil) := rfl
      rw [h1, Bool.and_eq_true] at hwm
      exact hwm.1
    have hpv := parse_emit_V v (d + 1) ('\n' :: (ws d ++ ('}' :: rest))) f hwv hfv
      rfl
    have hstr := parseString_escStr k.data
      (':' :: ' ' :: (emitV (d + 1) v ++ ('\n' :: (ws d ++ ('}' :: rest)))))
    have hswc : skipWs (':' :: ' ' :: (emitV (d + 1) v
          ++ ('\n' :: (ws d ++ ('}' :: rest)))))
        = ':' :: ' ' :: (emitV (d + 1) v ++ ('\n' :: (ws d ++ ('}' :: rest)))) :=
      skipWs_cons_not (by decide) _
    have hswv : skipWs (' ' :: (emitV (d + 1) v ++ ('\n' :: (ws d ++ ('}' :: rest)))))
        = emitV (d + 1) v ++ ('\n' :: (ws d ++ ('}' :: rest))) := by
      rw [skipWs_cons_ws (by decide), skipWs_emit]
    have hswt : skipWs ('\n' :: (ws d ++ ('}' :: rest))) = '}' :: rest := by
      rw [skipWs_newline_indent, skipWs_cons_not (by decide)]
    rw [show membersBody d rest (.cons k v .nil)
        = quoteStr k ++ (':' :: ' ' :: (emitV (d + 1) v
            ++ ('\n' :: (ws d ++ ('}' :: rest))))) from rfl]
    rw [quoteStr_stream]
    rw [parseMembersRaw.eq_def]
    simp [hstr, hswc, hswv, hswt, hpv]
  | .cons k v (.cons k2 v2 t2), d, rest, fuel, _, hwm, hn => by
    have hmaxl := Nat.le_max_left (nfV v) (nfM (.cons k2 v2 t2))
    have hmaxr := Nat.le_max_right (nfV v) (nfM (.cons k2 v2 t2))
    obtain ⟨f, rfl⟩ : ∃ f, fuel = f + 1 :=
      ⟨fuel - 1, by
        have h1 : nfM (.cons k v (.cons k2 v2 t2))
            = max (nfV v) (nfM (.cons k2 v2 t2)) + 1 := rfl
        omega⟩
    have hfv : nfV v ≤ f := by
      have h1 : nfM (.cons k v (.cons k2 v2 t2))
          = max (nfV v) (nfM (.cons k2 v2 t2)) + 1 := rfl
      omega
    have hft : nfM (.cons k2 v2 t2) ≤ f := by
      have h1 : nfM (.cons k v (.cons k2 v2 t2))
          = max (nfV v) (nfM (.cons k2 v2 t2)) + 1 := rfl
      omega
    have hwsplit : wfV v = true ∧ wfM (.cons k2 v2 t2) = true := by
      have h1 : wfM (.cons k v (.cons k2 v2 t2))
          = (wfV v && wfM (.cons k2 v2 t2)) := rfl
      rw [h1, Bool.and_eq_true] at hwm
      exact hwm
    have hpv := parse_emit_V v (d + 1)
      (',' :: '\n' :: (ws (d + 1) ++ membersBody d rest (.cons k2 v2 t2))) f
      hwsplit.1 hfv rfl
    have hstr := parseString_escStr k.data
      (':' :: ' ' :: (emitV (d + 1) v ++ (',' :: '\n'
        :: (ws (d + 1) ++ membersBody d rest (.cons k2 v2 t2)))))
    have hswc : skipWs (':' :: ' ' :: (emitV (d + 1) v ++ (',' :: '\n'
          :: (ws (d + 1) ++ membersBody d rest (.cons k2 v2 t2)))))
        = ':' :: ' ' :: (emitV (d + 1) v ++ (',' :: '\n'
          :: (ws (d + 1) ++ membersBody d rest (.cons k2 v2 t2)))) :=
      skipWs_cons_not (by decide) _
    have hswv : skipWs (' ' :: (emitV (d + 1) v ++ (',' :: '\n'
          :: (ws (d + 1) ++ membersBody d rest (.cons k2 v2 t2)))))
        = emitV (d + 1) v ++ (',' :: '\n'
          :: (ws (d + 1) ++ membersBody d rest (.cons k2 v2 t2))) := by
      rw [skipWs_cons_ws (by decide), skipWs_emit]
    have hswm : skipWs (',' :: '\n'
          :: (ws (d + 1) ++ membersBody d rest (.cons k2 v2 t2)))
        = ',' :: '\n' :: (ws (d + 1) ++ membersBody d rest (.cons k2 v2 t2)) :=
      skipWs_cons_not (by decide) _
    have hswm2 : skipWs ('\n' :: (ws (d + 1) ++ membersBody d rest (.cons k2 v2 t2)))
        = membersBody d rest (.cons k2 v2 t2) := by
      rw [skipWs_newline_indent, skipWs_membersBody]
    have hrec := parse_emit_M (.cons k2 v2 t2) d rest f
      (fun h => JsonMembers.noConfusion h) hwsplit.2 hft
    rw [membersBody_cons_cons]
    rw [quoteStr_stream]
    rw [parseMembersRaw.eq_def]
    simp [hstr, hswc, hswv, hswm, hswm2, hpv, hrec]

end

/-! ## Fuel bounds: the emitted text is at least as long as the fuel needed -/

theorem nfV_pos : ∀ v : JsonValue, 1 ≤ nfV v
  | .null => Nat.le_refl 1
  | .undef => Nat.le_refl 1
  | .bool _ => Nat.le_refl 1
  | .num _ => Nat.le_refl 1
  | .str _ => Nat.le_refl 1
  | .arr _ => Nat.succ_le_succ (Nat.zero_le _)
  | .obj _ => Nat.succ_le_succ (Nat.zero_le _)

mutual

theorem nfV_le_emit : ∀ (v : JsonValue) (d : Nat), wfV v = true →
    nfV v ≤ (emitV d v).length
  | .null, d, _ => by
    have h1 : nfV .null = 1 := rfl
    have h2 : (emitV d .null).length = 4 := rfl
    omega
  | .undef, _, hwf => absurd hwf (by decide)
  | .bool true, d, _ => by
    have h1 : nfV (.bool true) = 1 := rfl
    have h2 : (emitV d (.bool true)).length = 4 := rfl
    omega
  | .bool false, d, _ => by
    have h1 : nfV (.bool false) = 1 := rfl
    have h2 : (emitV d (.bool false)).length = 5 := rfl
    omega
  | .num i, d, _ => by
    have h1 : nfV (.num i) = 1 := rfl
    obtain ⟨c, t, he, -⟩ := intChars_head i
    have h2 : (emitV d (.num i)).length = (intChars i).length := rfl
    rw [he] at h2
    simp at h2
    omega
  | .str u, d, _ => by
    have h1 : nfV (.str u) = 1 := rfl
    have h2 : (emitV d (.str u)).length = (quoteStr u).length := rfl
    have h3 := congrArg List.length (quoteStr_stream u [])
    simp at h3
    omega
  | .arr .nil, d, _ => by
    have h1 : nfV (.arr .nil) = 2 := rfl
    have h2 : (emitV d (.arr .nil)).length = 2 := rfl
    omega
  | .arr (.cons v t), d, hwf => by
    have hwl : wfL (.cons v t) = true := by
      have h1 : wfV (.arr (.cons v t)) = wfL (.cons v t) := rfl
      rwa [h1] at hwf
    have hih := nfL_le_items (.cons v t) d [] (fun h => JsonList.noConfusion h) hwl
    have hlen := congrArg List.length (emit_arr_stream d [] v t)
    simp [List.length_append] at hlen
    have h1 : nfV (.arr (.cons v t)) = nfL (.cons v t) + 1 := rfl
    omega
  | .obj .nil, d, _ => by
    have h1 : nfV (.obj .nil) = 2 := rfl
    have h2 : (emitV d (.obj .nil)).length = 2 := rfl
    omega
  | .obj (.cons k v m), d, hwf => by
    have hwm : wfM (.cons k v m) = true := by
      have h1 : wfV (.obj (.cons k v m))
          = (noDupKeys (.cons k v m) && wfM (.cons k v m)) := rfl
      rw [h1, Bool.and_eq_true] at hwf
      exact hwf.2
    have hih := nfM_le_members (.cons k v m) d []
      (fun h => JsonMembers.noConfusion h) hwm
    have hlen := congrArg List.length (emit_obj_stream d [] k m hwm)
    simp [List.length_append] at hlen
    have h1 : nfV (.obj (.cons k v m)) = nfM (.cons k v m) + 1 := rfl
    omega

theorem nfL_le_items : ∀ (l : JsonList) (d : Nat) (rest : List Char),
    l ≠ .nil → wfL l = true → nfL l ≤ (itemsBody d rest l).length
  | .nil, _, _, h, _ => absurd rfl h
  | .cons v .nil, d, rest, _, hwl => by
    have hwv : wfV v = true := by
      have h1 : wfL (.cons v .nil) = (wfV v && wfL .nil) := rfl
      rw [h1, Bool.and_eq_true] at hwl
      exact hwl.1
    have hih := nfV_le_emit v (d + 1) hwv
    have hlen := congrArg List.length
      (show itemsBody d rest (.cons v .nil)
        = emitV (d + 1) v ++ ('\n' :: (ws d ++ (']' :: rest))) from rfl)
    simp [List.length_append] at hlen
    have h1 : nfL (.cons v .nil) = max (nfV v) (nfL .nil) + 1 := rfl
    have h2 : nfL (JsonList.nil) = 1 := rfl
    omega
  | .cons v (.cons v2 t2), d, rest, _, hwl => by
    have hwsplit : wfV v = true ∧ wfL (.cons v2 t2) = true := by
      have h1 : wfL (.cons v (.cons v2 t2)) = (wfV v && wfL (.cons v2 t2)) := rfl
      rw [h1, Bool.and_eq_true] at hwl
      exact hwl
    have hih1 := nfV_le_emit v (d + 1) hwsplit.1
    have hih2 := nfL_le_items (.cons v2 t2) d rest
      (fun h => JsonList.noConfusion h) hwsplit.2
    have hlen := congrArg List.length (itemsBody_cons_cons d rest v v2 t2)
    simp [List.length_append] at hlen
    have h1 : nfL (.cons v (.cons v2 t2))
        = max (nfV v) (nfL (.cons v2 t2)) + 1 := rfl
    omega

theorem nfM_le_members : ∀ (m : JsonMembers) (d : Nat) (rest : List Char),
    m ≠ .nil → wfM m = true → nfM m ≤ (membersBody d rest m).length
  | .nil, _, _, h, _ => absurd rfl h
  | .cons k v .nil, d, rest, _, hwm => by
    have hwv : wfV v = true := by
      have h1 : wfM (.cons k v .nil) = (wfV v && wfM .nil) := rfl
      rw [h1, Bool.and_eq_true] at hwm
      exact hwm.1
    have hih := nfV_le_emit v (d + 1) hwv
    have hlen := congrArg List.length
      (show membersBody d rest (.cons k v .nil)
        = quoteStr k ++ (':' :: ' ' :: (emitV (d + 1) v
            ++ ('\n' :: (ws d ++ ('}' :: rest))))) from rfl)
    simp [List.length_append] at hlen
    have h1 : nfM (.cons k v .nil) = max (nfV v) (nfM .nil) + 1 := rfl
    have h2 : nfM (JsonMembers.nil) = 1 := rfl
    omega
  | .cons k v (.cons k2 v2 t2), d, rest, _, hwm => by
    have hwsplit : wfV v = true ∧ wfM (.cons k2 v2 t2) = true := by
      have h1 : wfM (.cons k v (.cons k2 v2 t2))
          = (wfV v && wfM (.cons k2 v2 t2)) := rfl
      rw [h1, Bool.and_eq_true] at hwm
      exact hwm
    have hih1 := nfV_le_emit v (d + 1) hwsplit.1
    have hih2 := nfM_le_members (.cons k2 v2 t2) d rest
      (fun h => JsonMembers.noConfusion h) hwsplit.2
    have hlen := congrArg List.length (membersBody_cons_cons d rest k k2 v v2 t2)
    simp [List.length_append] at hlen
    have h1 : nfM (.cons k v (.cons k2 v2 t2))
        = max (nfV v) (nfM (.cons k2 v2 t2)) + 1 := rfl
    omega

end

/-- A well-formed value survives serialization and re-parsing unchanged. -/
theorem parseJson_stringify2 (v : JsonValue) (h : wfV v = true) :
    parseJson (stringify2 v) = some v := by
  have hnf : nfV v ≤ (emitV 0 v).length := nfV_le_emit v 0 h
  have hp := parse_emit_V v 0 [] ((emitV 0 v).length + 1) h (by omega) rfl
  rw [List.append_nil] at hp
  have hsw : skipWs (emitV 0 v) = emitV 0 v := by
    have h2 := skipWs_emit 0 v []
    simpa using h2
  unfold parseJson
  rw [show (stringify2 v).data = emitV 0 v from rfl, hsw, hp]
  rfl

/-! ## `handleSave` unfolding and EditCommit error behavior -/

theorem handleSave_some (docText editedText : String) (nd : NodeDataM)
    {parsed : JsonValue} (hp : parseJson editedText = some parsed) :
    handleSave docText (some nd) editedText
      = .ok (stringify2
          (newRootFor ((parseJson docText).getD (.obj .nil)) nd parsed)) := by
  cases hs : singleKeyless nd.text
  · cases parsed <;>
      cases hg : getValueAtPath ((parseJson docText).getD (.obj .nil)) nd.path <;>
      simp [handleSave, newRootFor, hp, hs, hg]
  · simp [handleSave, newRootFor, hp, hs]

/-- C5: when the edited text fails to parse as JSON, the commit yields the
error result `"Invalid JSON — please fix syntax before saving"` — whose text
contains `"Invalid JSON"` — and never a success carrying a new document
text, so no write happens. -/
theorem editCommit_invalid_json (docText editedText : String)
    (nodeData : Option NodeDataM) (h : parseJson editedText = none) :
    handleSave docText nodeData editedText
      = .error "Invalid JSON — please fix syntax before saving"
    ∧ ("Invalid JSON — please fix syntax before saving".data.take
          "Invalid JSON".data.length = "Invalid JSON".data)
    ∧ (∀ out, handleSave docText nodeData editedText ≠ .ok out) := by
  have h1 : handleSave docText nodeData editedText
      = .error "Invalid JSON — please fix syntax before saving" := by
    simp [handleSave, h]
  refine ⟨h1, by decide, ?_⟩
  intro out he
  rw [h1] at he
  exact Except.noConfusion he

theorem editCommit_invalid_json_witness :
    parseJson "\x7bbad json" = none
    ∧ (handleSave "\x7b\"a\": 1\x7d" none "\x7bbad json"
        = .error "Invalid JSON — please fix syntax before saving"
      ∧ ("Invalid JSON — please fix syntax before saving".data.take
            "Invalid JSON".data.length = "Invalid JSON".data)
      ∧ (∀ out, handleSave "\x7b\"a\": 1\x7d" none "\x7bbad json" ≠ .ok out)) :=
  ⟨by decide, editCommit_invalid_json "\x7b\"a\": 1\x7d" "\x7bbad json" none (by decide)⟩

/-- C9: when the current document text fails to parse, the commit behaves
exactly as if the document were the empty object `"{}"`, and the corrupt
document never blocks the edit: whenever the edited text parses and a node
is selected, the commit still succeeds with a new document text. -/
theorem editCommit_corrupt_doc (docText editedText : String)
    (nodeData : Option NodeDataM) (h : parseJson docText = none) :
    handleSave docText nodeData editedText = handleSave "{}" nodeData editedText
    ∧ (∀ parsed nd, parseJson editedText = some parsed → nodeData = some nd →
        ∃ newText, handleSave docText nodeData editedText = .ok newText) := by
  constructor
  · cases hp : parseJson editedText with
    | none => simp [handleSave, hp]
    | some parsed =>
      cases nodeData with
      | none => simp [handleSave, hp]
      | some nd =>
        rw [handleSave_some docText editedText nd hp,
          handleSave_some "{}" editedText nd hp, h,
          show parseJson "{}" = some (.obj .nil) from by decide]
        rfl
  · intro parsed nd hp hnd
    subst hnd
    exact ⟨_, handleSave_some docText editedText nd hp⟩

theorem editCommit_corrupt_doc_witness :
    parseJson "\x7bbad" = none
    ∧ (handleSave "\x7bbad"
          (some (⟨[], [⟨none, .null, "null"⟩]⟩ : NodeDataM)) "[1, 2]"
        = handleSave "{}"
            (some (⟨[], [⟨none, .null, "null"⟩]⟩ : NodeDataM)) "[1, 2]"
      ∧ (∀ parsed nd, parseJson "[1, 2]" = some parsed
          → some (⟨[], [⟨none, .null, "null"⟩]⟩ : NodeDataM) = some nd
          → ∃ newText, handleSave "\x7bbad"
              (some (⟨[], [⟨none, .null, "null"⟩]⟩ : NodeDataM)) "[1, 2]"
              = .ok newText))
    ∧ handleSave "\x7bbad"
        (some (⟨[], [⟨none, .null, "null"⟩]⟩ : NodeDataM)) "[1, 2]"
        = .ok "[\n  1,\n  2\n]" :=
  ⟨by decide,
   editCommit_corrupt_doc "\x7bbad" "[1, 2]"
     (some (⟨[], [⟨none, .null, "null"⟩]⟩ : NodeDataM)) (by decide),
   by decide⟩

/-! ## Merge semantics: `{ ...target, ...parsed }` -/

theorem hasKey_objInsert : ∀ (m : JsonMembers) (k : String) (v : JsonValue)
    (s : String), hasKey (objInsert m k v) s = (k == s || hasKey m s)
  | .nil, k, v, s => by simp [objInsert, hasKey]
  | .cons k' v' t, k, v, s => by
    by_cases h : k' = k
    · subst h
      rw [objInsert, if_pos rfl, hasKey, hasKey]
      cases hk : (k' == s) <;> simp [hk]
    · rw [objInsert, if_neg h, hasKey, hasKey, hasKey_objInsert t k v s]
      cases hk' : (k' == s) <;> cases hk : (k == s) <;> simp [hk', hk]

theorem noDupKeys_objInsert : ∀ (m : JsonMembers) (k : String) (v : JsonValue),
    noDupKeys m = true → noDupKeys (objInsert m k v) = true
  | .nil, k, v, _ => by simp [objInsert, noDupKeys, hasKey]
  | .cons k' v' t, k, v, h => by
    rw [noDupKeys, Bool.and_eq_true] at h
    by_cases hk : k' = k
    · subst hk
      rw [objInsert, if_pos rfl, noDupKeys, Bool.and_eq_true]
      exact ⟨h.1, h.2⟩
    · rw [objInsert, if_neg hk, noDupKeys, Bool.and_eq_true]
      have h1 : hasKey t k' = false := by simpa using h.1
      have h2 : (k == k') = false := by
        simp only [beq_eq_false_iff_ne]
        exact fun he => hk he.symm
      refine ⟨?_, noDupKeys_objInsert t k v h.2⟩
      rw [hasKey_objInsert t k v k', h1, h2]
      rfl

theorem noDupKeys_buildObjAux : ∀ (m acc : JsonMembers),
    noDupKeys acc = true → noDupKeys (buildObjAux acc m) = true
  | .nil, _, h => h
  | .cons k v t, acc, h =>
    noDupKeys_buildObjAux t (objInsert acc k v) (noDupKeys_objInsert acc k v h)

theorem noDupKeys_buildObj (m : JsonMembers) : noDupKeys (buildObj m) = true :=
  noDupKeys_buildObjAux m .nil rfl

theorem parseValue_obj_shape (fuel : Nat) (cs : List Char) (p : JsonMembers)
    (rest : List Char) (h : parseValue fuel cs = some (.obj p, rest)) :
    p = .nil ∨ ∃ ms, p = buildObj ms := by
  match fuel with
  | 0 =>
    rw [show parseValue 0 cs = none from rfl] at h
    exact Option.noConfusion h
  | f + 1 =>
    rw [parseValue.eq_def] at h
    cases cs with
    | nil => exact Option.noConfusion h
    | cons c r =>
      simp only at h
      split_ifs at h with hn ht hf hq harr hobj hnum
      · split at h <;> simp at h
      · split at h <;> simp at h
      · split at h <;> simp at h
      · cases hps : parseStringChars r <;> rw [hps] at h <;> simp at h
      · split at h
        · exact Option.noConfusion h
        · rename_i c2 r1 heq
          split_ifs at h
          · simp at h
          · cases hpi : parseItems f (c2 :: r1) <;> rw [hpi] at h <;> simp at h
      · split at h
        · exact Option.noConfusion h
        · rename_i c2 r1 heq
          split_ifs at h
          · simp at h
            exact Or.inl h.1.symm
          · cases hpm : parseMembersRaw f (c2 :: r1) with
            | none => rw [hpm] at h; simp at h
            | some pr =>
              rw [hpm] at h
              simp at h
              exact Or.inr ⟨pr.1, h.1.symm⟩
      · cases hpn : parseNum (c :: r) <;> rw [hpn] at h <;> simp at h

theorem parseJson_obj_noDup (s : String) (p : JsonMembers)
    (h : parseJson s = some (.obj p)) : noDupKeys p = true := by
  unfold parseJson at h
  cases hpv : parseValue (s.data.length + 1) (skipWs s.data) with
  | none => rw [hpv] at h; exact Option.noConfusion h
  | some pr =>
    obtain ⟨v, rest⟩ := pr
    rw [hpv] at h
    have h2 : (match skipWs rest with
        | [] => some v
        | _ => (none : Option JsonValue)) = some (.obj p) := h
    cases hsw : skipWs rest with
    | nil =>
      rw [hsw] at h2
      have h3 : some v = some (.obj p) := h2
      have h4 : v = .obj p := Option.some.inj h3
      subst h4
      rcases parseValue_obj_shape _ _ _ _ hpv with hnil | ⟨ms, hms⟩
      · subst hnil; rfl
      · subst hms; exact noDupKeys_buildObj ms
    | cons c t =>
      rw [hsw] at h2
      have h3 : (none : Option JsonValue) = some (.obj p) := h2
      exact Option.noConfusion h3

theorem mergeObj_lookup : ∀ (p t : JsonMembers) (k : String),
    noDupKeys p = true →
    lookupObj (mergeObj t p) k
      = if hasKey p k = true then lookupObj p k else lookupObj t k
  | .nil, t, k, _ => by simp [mergeObj, hasKey, lookupObj]
  | .cons k' v' p', t, k, h => by
    rw [noDupKeys, Bool.and_eq_true] at h
    have h1 : hasKey p' k' = false := by simpa using h.1
    rw [show mergeObj t (.cons k' v' p') = mergeObj (objInsert t k' v') p'
        from rfl]
    rw [mergeObj_lookup p' (objInsert t k' v') k h.2]
    by_cases hk : k' = k
    · subst hk
      simp [h1, hasKey, lookupObj]
      exact lookupObj_objInsert_self t k' v'
    · have h2 : (k' == k) = false := by simp [hk]
      rw [lookupObj_objInsert_ne t hk v']
      simp [hasKey, lookupObj, h2, hk]

/-- C1: with a selected node whose rows are not a single keyless row, when
the parsed edited value and the current value at the node's path are both
plain objects the commit writes their shallow merge at that path — on each
key the parsed object's binding wins when present, the current object's
binding otherwise — and in every other shape it writes the parsed value
directly. -/
theorem editCommit_merge_semantics (docText editedText : String)
    (nd : NodeDataM) (parsed : JsonValue) (p t : JsonMembers)
    (hp : parseJson editedText = some parsed)
    (hsk : singleKeyless nd.text = false)
    (hparsed : parsed = .obj p)
    (htarget : getValueAtPath ((parseJson docText).getD (.obj .nil)) nd.path
        = .obj t) :
    handleSave docText (some nd) editedText
      = .ok (stringify2 (setValueAtPath ((parseJson docText).getD (.obj .nil))
          nd.path (.obj (mergeObj t p))))
    ∧ (∀ k, lookupObj (mergeObj t p) k
        = if hasKey p k = true then lookupObj p k else lookupObj t k)
    ∧ (∀ (editedText2 : String) (parsed2 : JsonValue),
        parseJson editedText2 = some parsed2 →
        ((∀ q, parsed2 ≠ .obj q)
          ∨ (∀ q, getValueAtPath ((parseJson docText).getD (.obj .nil)) nd.path
              ≠ .obj q)) →
        handleSave docText (some nd) editedText2
          = .ok (stringify2 (setValueAtPath
              ((parseJson docText).getD (.obj .nil)) nd.path parsed2))) := by
  subst hparsed
  have hnd : noDupKeys p = true := parseJson_obj_noDup editedText p hp
  refine ⟨?_, fun k => mergeObj_lookup p t k hnd, ?_⟩
  · rw [handleSave_some docText editedText nd hp]
    have hnr : newRootFor ((parseJson docText).getD (.obj .nil)) nd (.obj p)
        = setValueAtPath ((parseJson docText).getD (.obj .nil)) nd.path
            (.obj (mergeObj t p)) := by
      simp [newRootFor, hsk, htarget]
    rw [hnr]
  · intro editedText2 parsed2 hp2 hcase
    rw [handleSave_some docText editedText2 nd hp2]
    have hnr : newRootFor ((parseJson docText).getD (.obj .nil)) nd parsed2
        = setValueAtPath ((parseJson docText).getD (.obj .nil)) nd.path
            parsed2 := by
      unfold newRootFor
      rw [if_neg (by simp [hsk])]
      rcases hcase with hc | hc
      · cases parsed2 with
        | obj q => exact absurd rfl (hc q)
        | null => rfl
        | undef => rfl
        | bool b => rfl
        | num i => rfl
        | str u => rfl
        | arr l => rfl
      · cases parsed2 with
        | obj q =>
          cases hg : getValueAtPath ((parseJson docText).getD (.obj .nil))
              nd.path with
          | obj t2 => exact absurd hg (hc t2)
          | null => rfl
          | undef => rfl
          | bool b => rfl
          | num i => rfl
          | str u => rfl
          | arr l => rfl
        | null => rfl
        | undef => rfl
        | bool b => rfl
        | num i => rfl
        | str u => rfl
        | arr l => rfl
    rw [hnr]

theorem editCommit_merge_semantics_witness :
    handleSave "\x7b\"a\": 1, \"b\": 2\x7d"
        (some (⟨[], [⟨some "a", .num 1, "number"⟩,
                     ⟨some "b", .num 2, "number"⟩]⟩ : NodeDataM))
        "\x7b\"b\": 3, \"c\": 4\x7d"
      = .ok "\x7b\n  \"a\": 1,\n  \"b\": 3,\n  \"c\": 4\n\x7d" := by
  rw [(editCommit_merge_semantics "\x7b\"a\": 1, \"b\": 2\x7d" "\x7b\"b\": 3, \"c\": 4\x7d"
      (⟨[], [⟨some "a", .num 1, "number"⟩,
             ⟨some "b", .num 2, "number"⟩]⟩ : NodeDataM)
      (jobj [("b", .num 3), ("c", .num 4)])
      (JsonMembers.ofList [("b", .num 3), ("c", .num 4)])
      (JsonMembers.ofList [("a", .num 1), ("b", .num 2)])
      (by decide) (by decide) rfl (by decide)).1]
  decide

/-! ## The normalizer's accumulated object -/

theorem wfM_objInsert : ∀ (m : JsonMembers) (k : String) (v : JsonValue),
    wfM m = true → wfV v = true → wfM (objInsert m k v) = true
  | .nil, k, v, _, hv => by
    rw [objInsert, show wfM (.cons k v .nil) = (wfV v && wfM .nil) from rfl, hv]
    rfl
  | .cons k' v' t, k, v, h, hv => by
    rw [show wfM (.cons k' v' t) = (wfV v' && wfM t) from rfl,
      Bool.and_eq_true] at h
    by_cases hk : k' = k
    · subst hk
      rw [objInsert, if_pos rfl]
      rw [show wfM (.cons k' v t) = (wfV v && wfM t) from rfl, hv, h.2]
      rfl
    · rw [objInsert, if_neg hk,
        show wfM (.cons k' v' (objInsert t k v))
          = (wfV v' && wfM (objInsert t k v)) from rfl,
        h.1, wfM_objInsert t k v h.2 hv]
      rfl

theorem rowStep_noDup (acc : JsonMembers) (r : NodeRow)
    (h : noDupKeys acc = true) : noDupKeys (rowStep acc r) = true := by
  unfold rowStep
  split_ifs with h1
  · cases hk : r.key with
    | none => exact h
    | some k =>
      show noDupKeys (if !(k == "") then objInsert acc k r.value else acc) = true
      split_ifs with h2
      · exact noDupKeys_objInsert acc k r.value h
      · exact h
  · exact h

theorem rowStep_wfM (acc : JsonMembers) (r : NodeRow)
    (h : wfM acc = true) (hv : wfV r.value = true) :
    wfM (rowStep acc r) = true := by
  unfold rowStep
  split_ifs with h1
  · cases hk : r.key with
    | none => exact h
    | some k =>
      show wfM (if !(k == "") then objInsert acc k r.value else acc) = true
      split_ifs with h2
      · exact wfM_objInsert acc k r.value h hv
      · exact h
  · exact h

theorem rowStep_bad (acc : JsonMembers) (r : NodeRow)
    (h : goodRow r = false) : rowStep acc r = acc := by
  unfold goodRow at h
  unfold rowStep
  split_ifs with h1
  · rw [h1, Bool.true_and] at h
    cases hk : r.key with
    | none => rfl
    | some k =>
      rw [hk] at h
      have hke : (!(k == "")) = false := h
      show (if !(k == "") then objInsert acc k r.value else acc) = acc
      simp [hke]
  · rfl

theorem foldl_rowStep_noDup : ∀ (rows : List NodeRow) (acc : JsonMembers),
    noDupKeys acc = true → noDupKeys (List.foldl rowStep acc rows) = true
  | [], _, h => h
  | r :: rs, acc, h =>
    foldl_rowStep_noDup rs (rowStep acc r) (rowStep_noDup acc r h)

theorem foldl_rowStep_wfM : ∀ (rows : List NodeRow) (acc : JsonMembers),
    (∀ r ∈ rows, wfV r.value = true) → wfM acc = true →
    wfM (List.foldl rowStep acc rows) = true
  | [], _, _, h => h
  | r :: rs, acc, hall, h =>
    foldl_rowStep_wfM rs (rowStep acc r)
      (fun x hx => hall x (List.mem_cons_of_mem r hx))
      (rowStep_wfM acc r h (hall r (List.mem_cons_self r rs)))

theorem foldl_rowStep_filter : ∀ (rows : List NodeRow) (acc : JsonMembers),
    List.foldl rowStep acc (rows.filter goodRow) = List.foldl rowStep acc rows
  | [], _ => rfl
  | r :: rs, acc => by
    cases hg : goodRow r with
    | true =>
      rw [show (r :: rs).filter goodRow = r :: rs.filter goodRow from by
        simp [List.filter_cons, hg]]
      rw [List.foldl_cons, List.foldl_cons,
        foldl_rowStep_filter rs (rowStep acc r)]
    | false =>
      rw [show (r :: rs).filter goodRow = rs.filter goodRow from by
        simp [List.filter_cons, hg]]
      rw [List.foldl_cons, rowStep_bad acc r hg,
        foldl_rowStep_filter rs acc]

theorem normalizeNodeData_not_single (rows : List NodeRow)
    (hsk : singleKeyless rows = false) :
    normalizeNodeData rows = stringify2 (.obj (rowsObj rows)) := by
  match rows with
  | [] => decide
  | [r] =>
    have hkt : keyTruthy r.key = true := by simpa [singleKeyless] using hsk
    show (if keyTruthy r.key then stringify2 (.obj (rowsObj [r]))
        else jsToString r.value) = stringify2 (.obj (rowsObj [r]))
    rw [if_pos hkt]
  | r1 :: r2 :: rs => rfl

/-- C6 counterexample: a single keyless string row normalizes to the raw
template-string form of the value (`` `${value}` ``), which for the string
`"Ann"` is the text `Ann` — not valid JSON, so re-parsing cannot reproduce
the row's value. -/
theorem normalize_reparse_counterexample :
    normalizeNodeData [⟨none, .str "Ann", "string"⟩] = "Ann"
    ∧ parseJson "Ann" = none := by decide

/-- C6 (amended): away from the single-keyless case the normalizer's output,
re-parsed as JSON, is exactly the object accumulated from the scalar-typed
truthy-key rows, provided the row values are well-formed; empty input yields
`"{}"`; and a single keyless row is rendered as the raw template-string form
of its value, which need not be valid JSON. -/
theorem normalize_reparse (rows : List NodeRow)
    (hwf : ∀ r ∈ rows, wfV r.value = true)
    (hsk : singleKeyless rows = false) :
    parseJson (normalizeNodeData rows) = some (.obj (rowsObj rows))
    ∧ normalizeNodeData [] = "{}"
    ∧ (∀ r : NodeRow, keyTruthy r.key = false →
        normalizeNodeData [r] = jsToString r.value) := by
  refine ⟨?_, rfl, ?_⟩
  · rw [normalizeNodeData_not_single rows hsk]
    refine parseJson_stringify2 _ ?_
    rw [show wfV (.obj (rowsObj rows))
        = (noDupKeys (rowsObj rows) && wfM (rowsObj rows)) from rfl,
      Bool.and_eq_true]
    exact ⟨foldl_rowStep_noDup rows .nil rfl,
      foldl_rowStep_wfM rows .nil hwf rfl⟩
  · intro r h
    show (if keyTruthy r.key then stringify2 (.obj (rowsObj [r]))
        else jsToString r.value) = jsToString r.value
    rw [if_neg (by rw [h]; exact Bool.false_ne_true)]

theorem normalize_reparse_witness :
    (∀ r ∈ [(⟨some "name", .str "Ann", "string"⟩ : NodeRow),
            ⟨some "age", .num 30, "number"⟩], wfV r.value = true)
    ∧ singleKeyless [(⟨some "name", .str "Ann", "string"⟩ : NodeRow),
        ⟨some "age", .num 30, "number"⟩] = false
    ∧ (parseJson (normalizeNodeData
          [(⟨some "name", .str "Ann", "string"⟩ : NodeRow),
           ⟨some "age", .num 30, "number"⟩])
        = some (.obj (rowsObj
            [(⟨some "name", .str "Ann", "string"⟩ : NodeRow),
             ⟨some "age", .num 30, "number"⟩]))
      ∧ normalizeNodeData [] = "{}"
      ∧ (∀ r : NodeRow, keyTruthy r.key = false →
          normalizeNodeData [r] = jsToString r.value)) :=
  ⟨by decide, by decide,
   normalize_reparse
     [(⟨some "name", .str "Ann", "string"⟩ : NodeRow),
      ⟨some "age", .num 30, "number"⟩] (by decide) (by decide)⟩

/-- C10: in the multi-row case the normalizer serializes exactly the object
accumulated from the rows that pass the filter (truthy key, type neither
`array` nor `object`): the other rows leave the accumulator untouched, so
filtering them away does not change the result. -/
theorem normalize_drops_keyless_rows (rows : List NodeRow)
    (hsk : singleKeyless rows = false) :
    normalizeNodeData rows = stringify2 (.obj (rowsObj rows))
    ∧ rowsObj rows = rowsObj (rows.filter goodRow)
    ∧ (∀ (r : NodeRow) (acc : JsonMembers), goodRow r = false →
        rowStep acc r = acc) :=
  ⟨normalizeNodeData_not_single rows hsk,
   (foldl_rowStep_filter rows .nil).symm,
   fun r acc h => rowStep_bad acc r h⟩

theorem normalize_drops_keyless_rows_witness :
    singleKeyless [(⟨some "a", .num 1, "number"⟩ : NodeRow),
        ⟨none, .num 2, "number"⟩, ⟨some "", .num 3, "number"⟩,
        ⟨some "b", .arr .nil, "array"⟩] = false
    ∧ (normalizeNodeData [(⟨some "a", .num 1, "number"⟩ : NodeRow),
          ⟨none, .num 2, "number"⟩, ⟨some "", .num 3, "number"⟩,
          ⟨some "b", .arr .nil, "array"⟩]
        = stringify2 (.obj (rowsObj [(⟨some "a", .num 1, "number"⟩ : NodeRow),
            ⟨none, .num 2, "number"⟩, ⟨some "", .num 3, "number"⟩,
            ⟨some "b", .arr .nil, "array"⟩]))
      ∧ rowsObj [(⟨some "a", .num 1, "number"⟩ : NodeRow),
          ⟨none, .num 2, "number"⟩, ⟨some "", .num 3, "number"⟩,
          ⟨some "b", .arr .nil, "array"⟩]
        = rowsObj ([(⟨some "a", .num 1, "number"⟩ : NodeRow),
            ⟨none, .num 2, "number"⟩, ⟨some "", .num 3, "number"⟩,
            ⟨some "b", .arr .nil, "array"⟩].filter goodRow)
      ∧ (∀ (r : NodeRow) (acc : JsonMembers), goodRow r = false →
          rowStep acc r = acc))
    ∧ normalizeNodeData [(⟨some "a", .num 1, "number"⟩ : NodeRow),
        ⟨none, .num 2, "number"⟩, ⟨some "", .num 3, "number"⟩,
        ⟨some "b", .arr .nil, "array"⟩] = "\x7b\n  \"a\": 1\n\x7d" :=
  ⟨by decide,
   normalize_drops_keyless_rows
     [(⟨some "a", .num 1, "number"⟩ : NodeRow), ⟨none, .num 2, "number"⟩,
      ⟨some "", .num 3, "number"⟩, ⟨some "b", .arr .nil, "array"⟩]
     (by decide),
   by decide⟩

end JsonCore
